import Mathlib

/-!
Shallow embedding of the event-processing core of the bizstock-alert
repository (normalization, clustering, personalization, ranking services),
together with proofs of the frozen specification claims.

Conventions of the embedding:
* JavaScript numbers are modelled as `ℚ` (scores, weights) or `ℤ`
  (epoch-millisecond timestamps, rounded scores); all score arithmetic in
  the source stays well inside the exactly-representable double range.
* `Date` values (`new Date(x).getTime()`) are modelled as epoch
  milliseconds of type `ℤ` carried directly in the event records.
* JavaScript's `Array.prototype.sort`, which is required to be stable, is
  modelled by a stable insertion sort `stableSortBy` over a boolean
  "comparator at most zero" relation.
* JavaScript strings are Lean `String`s; character-level work happens on
  `String.data : List Char`.  `charCodeAt` is modelled via UTF-16 code
  units (`utf16Units`).
-/

namespace BizStock

/-- Source tier of an event: `A` primary, `B` semi-primary, `C` news. -/
inductive SourceTier where
  | A
  | B
  | C
deriving DecidableEq, Repr, Inhabited

/-- Event categories of the repository's `EventType` union.  The
constructors stand for, in order: 上方修正 (upward revision), 資本政策
(capital policy), 提携 (partnership), 事故 (incident), 規制 (regulation),
決算発表 (earnings), 業績予想 (guidance), 新製品 (new product), 受注
(order win), その他 (other). -/
inductive EventType where
  | upwardRevision
  | capitalPolicy
  | partnership
  | incident
  | regulation
  | earnings
  | guidance
  | newProduct
  | orderWin
  | other
deriving DecidableEq, Repr, Inhabited

/-- Impact level `強`/`中`/`弱` of the repository's `ImpactLevel` union. -/
inductive ImpactLevel where
  | strong
  | medium
  | weak
deriving DecidableEq, Repr, Inhabited

/-- Display string of an impact level (the literal union values). -/
def impactStr : ImpactLevel → String
  | .strong => "強"
  | .medium => "中"
  | .weak => "弱"

/-- Display string of an event type (the literal union values). -/
def eventTypeStr : EventType → String
  | .upwardRevision => "上方修正"
  | .capitalPolicy => "資本政策"
  | .partnership => "提携"
  | .incident => "事故"
  | .regulation => "規制"
  | .earnings => "決算発表"
  | .guidance => "業績予想"
  | .newProduct => "新製品"
  | .orderWin => "受注"
  | .other => "その他"

/-- Insert `x` into `l` in front of the first element `y` with `le x y`.
This is the single step of the stable sort modelling `Array.sort`. -/
def insStable (le : α → α → Bool) (x : α) : List α → List α
  | [] => [x]
  | y :: ys => if le x y then x :: y :: ys else y :: insStable le x ys

/-- Stable sort by a boolean total preorder `le`.  For a consistent
JavaScript comparator `cmp`, taking `le a b := cmp a b ≤ 0` makes this
agree with the (stable) `Array.prototype.sort`. -/
def stableSortBy (le : α → α → Bool) : List α → List α
  | [] => []
  | x :: xs => insStable le x (stableSortBy le xs)

theorem insStable_perm (le : α → α → Bool) (x : α) (l : List α) :
    List.Perm (insStable le x l) (x :: l) := by
  induction l with
  | nil => simp [insStable]
  | cons y ys ih =>
      by_cases h : le x y
      · simp [insStable, h]
      · simp only [insStable, h, if_neg, Bool.false_eq_true, if_false]
        exact (List.Perm.cons y ih).trans (List.Perm.swap x y ys)

theorem stableSortBy_perm (le : α → α → Bool) (l : List α) :
    List.Perm (stableSortBy le l) l := by
  induction l with
  | nil => simp [stableSortBy]
  | cons x xs ih =>
      exact (insStable_perm le x (stableSortBy le xs)).trans (List.Perm.cons x ih)

theorem mem_stableSortBy {le : α → α → Bool} {l : List α} {x : α} :
    x ∈ stableSortBy le l ↔ x ∈ l :=
  (stableSortBy_perm le l).mem_iff

theorem pairwise_insStable {le : α → α → Bool}
    (htot : ∀ a b, le a b = true ∨ le b a = true)
    (htrans : ∀ a b c, le a b = true → le b c = true → le a c = true)
    (x : α) {l : List α} (hl : l.Pairwise (fun a b => le a b = true)) :
    (insStable le x l).Pairwise (fun a b => le a b = true) := by
  induction l with
  | nil => simp [insStable]
  | cons y ys ih =>
      rcases hl with _ | ⟨hy, hys⟩
      by_cases h : le x y
      · have he : insStable le x (y :: ys) = x :: y :: ys := by
          simp [insStable, h]
        rw [he]
        refine List.Pairwise.cons ?_ (List.Pairwise.cons hy hys)
        intro z hz
        rcases List.mem_cons.mp hz with rfl | hz
        · exact h
        · exact htrans x y z h (hy _ hz)
      · have he : insStable le x (y :: ys) = y :: insStable le x ys := by
          simp [insStable, h]
        rw [he]
        refine List.Pairwise.cons ?_ (ih hys)
        intro z hz
        rcases List.mem_cons.mp ((insStable_perm le x ys).mem_iff.mp hz) with rfl | hz
        · rcases htot z y with h' | h'
          · exact absurd h' h
          · exact h'
        · exact hy _ hz

theorem pairwise_stableSortBy {le : α → α → Bool}
    (htot : ∀ a b, le a b = true ∨ le b a = true)
    (htrans : ∀ a b c, le a b = true → le b c = true → le a c = true)
    (l : List α) :
    (stableSortBy le l).Pairwise (fun a b => le a b = true) := by
  induction l with
  | nil => simp [stableSortBy]
  | cons x xs ih => exact pairwise_insStable htot htrans x ih

/-- Normalized event (`NormalizedEvent` in `src/types/events.ts`).
Timestamps are epoch milliseconds. -/
structure NormalizedEvent where
  id : String
  tier : SourceTier
  title : String
  url : String
  publishedAt : ℤ
  fetchedAt : ℤ
  tickerCodes : List String
  eventType : EventType
  sourceName : String
  excerpt : Option String
deriving DecidableEq, Repr, Inhabited

/-- Clustered event (`ClusteredEvent` in `src/types/events.ts`). -/
structure ClusteredEvent where
  clusterId : String
  events : List NormalizedEvent
  primaryTicker : String
  allTickers : List String
  title : String
  impact : ImpactLevel
  eventType : EventType
  publishedAt : ℤ
  sources : List String
  summary : Option String
  reasoning : Option String
  counterReasoning : Option String
deriving DecidableEq, Repr, Inhabited

/-- Lowercasing a single character, modelling `String.toLowerCase` on the
characters the services feed it (ASCII letters shift; everything else,
including all Japanese text, is fixed by `Char.toLower` as well). -/
def jsToLower (c : Char) : Char := c.toLower

/-- Membership test for JavaScript's `\s` whitespace class. -/
def isJsWhitespace (c : Char) : Bool :=
  c = ' ' ∨ c = '\t' ∨ c = '\n' ∨ c = '\r' ∨ c.toNat = 11 ∨ c.toNat = 12 ∨
  c.toNat = 160 ∨ c.toNat = 5760 ∨ (8192 ≤ c.toNat ∧ c.toNat ≤ 8202) ∨
  c.toNat = 8232 ∨ c.toNat = 8233 ∨ c.toNat = 8239 ∨ c.toNat = 8287 ∨
  c.toNat = 12288 ∨ c.toNat = 65279

/-- Japanese punctuation removed by the similarity normalizer
(`.replace(/[、。！？｜]/g, '')`). -/
def isSimilarityPunct (c : Char) : Bool :=
  c = '、' ∨ c = '。' ∨ c = '！' ∨ c = '？' ∨ c = '｜'

/-- Model of `normalizeText` in `clusteringService.ts`: lowercase, strip
whitespace, strip the fixed punctuation set. -/
def normalizeText (text : String) : List Char :=
  ((text.data.map jsToLower).filter (fun c => ¬ isJsWhitespace c)).filter
    (fun c => ¬ isSimilarityPunct c)

/-- Model of `getBigrams` in `clusteringService.ts`: the set of adjacent
character pairs of a text. -/
def getBigrams (text : List Char) : Finset (Char × Char) :=
  (text.zip text.tail).toFinset

/-- Model of `calculateSimilarity` in `clusteringService.ts`: Jaccard
similarity over character bigrams of the normalized titles. -/
def calculateSimilarity (text1 text2 : String) : ℚ :=
  let bigrams1 := getBigrams (normalizeText text1)
  let bigrams2 := getBigrams (normalizeText text2)
  let inter := bigrams1 ∩ bigrams2
  let uni := bigrams1 ∪ bigrams2
  if 0 < uni.card then (inter.card : ℚ) / (uni.card : ℚ) else 0

/-- Numeric order of tiers used by `createCluster`
(`{ A: 0, B: 1, C: 2 }`). -/
def tierOrder : SourceTier → ℕ
  | .A => 0
  | .B => 1
  | .C => 2

/-- Comparator of `createCluster`'s member sort, as "compare ≤ 0": tier
ascending, then published time descending. -/
def memberLe (a b : NormalizedEvent) : Bool :=
  if tierOrder a.tier ≠ tierOrder b.tier then
    decide (tierOrder a.tier < tierOrder b.tier)
  else
    decide (b.publishedAt ≤ a.publishedAt)

/-- Insertion-ordered set append, modelling `Set.add` followed by
`Array.from` (first occurrence wins, order of insertion kept). -/
def addSet [DecidableEq α] (acc : List α) (x : α) : List α :=
  if x ∈ acc then acc else acc ++ [x]

/-- Insertion-order deduplication of a list of already-ordered additions. -/
def dedupInsertion [DecidableEq α] (l : List α) : List α :=
  l.foldl addSet []

/-- UTF-16 code units of a character, modelling `charCodeAt` iteration. -/
def utf16Units (c : Char) : List ℕ :=
  if c.toNat < 65536 then [c.toNat]
  else [55296 + (c.toNat - 65536) / 1024, 56320 + (c.toNat - 65536) % 1024]

/-- Wrap an integer to the signed 32-bit range, modelling JavaScript's
`ToInt32` conversion performed by the bitwise operators. -/
def toInt32 (n : ℤ) : ℤ := (n + 2 ^ 31) % 2 ^ 32 - 2 ^ 31

/-- One step of `simpleHash`: `hash = (hash << 5) - hash + char` followed
by `hash = hash & hash` (a `ToInt32` round trip). -/
def simpleHashStep (h : ℤ) (u : ℕ) : ℤ := toInt32 (toInt32 (h * 32) - h + u)

/-- Model of `simpleHash` in `clusteringService.ts` up to the final
`Math.abs`. -/
def simpleHashInt (s : String) : ℤ :=
  ((s.data.map utf16Units).flatten).foldl simpleHashStep 0

/-- Character of a base-36 digit, as produced by `Number.toString(36)`. -/
def digitChar36 (d : ℕ) : Char :=
  if d < 10 then Char.ofNat (48 + d) else Char.ofNat (87 + d)

/-- Base-36 representation of a natural number (`Number.toString(36)`). -/
def base36Digits (n : ℕ) : List Char :=
  if _h : n < 36 then [digitChar36 n]
  else base36Digits (n / 36) ++ [digitChar36 (n % 36)]
decreasing_by exact Nat.div_lt_self (by omega) (by omega)

/-- Model of `simpleHash` in `clusteringService.ts`:
`Math.abs(hash).toString(36)`. -/
def simpleHash (s : String) : String :=
  ⟨base36Digits (simpleHashInt s).natAbs⟩

/-- Lexicographic comparison of character lists by code point, modelling
the default string comparator of `Array.prototype.sort`. -/
def lexLe : List Char → List Char → Bool
  | [], _ => true
  | _ :: _, [] => false
  | a :: as, b :: bs =>
      if a.toNat < b.toNat then true
      else if b.toNat < a.toNat then false
      else lexLe as bs

/-- String comparison for the default `Array.prototype.sort`. -/
def strLe (a b : String) : Bool := lexLe a.data b.data

/-- Model of `generateClusterId` in `clusteringService.ts`: the
idempotency-key string `ticker_timestamp_hash` over the sorted member
ids. -/
def generateClusterId (events : List NormalizedEvent) : String :=
  let primaryEvent := events.headD default
  let timestamp := primaryEvent.publishedAt
  let eventIds := String.intercalate "|" (stableSortBy strLe (events.map (·.id)))
  let hash := simpleHash eventIds
  let ticker :=
    match primaryEvent.tickerCodes.head? with
    | some t => if t = "" then "unknown" else t
    | none => "unknown"
  ticker ++ "_" ++ toString timestamp ++ "_" ++ hash

/-- Model of `determineImpact` in `clusteringService.ts`: at least one
tier-A member or at least two tier-B members gives `強`, exactly one
tier-B member gives `中`, anything else `弱`. -/
def determineImpact (events : List NormalizedEvent) : ImpactLevel :=
  let countA := (events.filter (fun e => e.tier = SourceTier.A)).length
  let countB := (events.filter (fun e => e.tier = SourceTier.B)).length
  if 0 < countA ∨ 2 ≤ countB then .strong
  else if countB = 1 then .medium
  else .weak

/-- Model of `createCluster` in `clusteringService.ts`.  The source sorts
the member array in place, so every later read (`primaryEvent`, ticker
and source aggregation, `determineImpact`, `generateClusterId`) sees the
sorted array; the model therefore threads `sortedEvents` everywhere. -/
def createCluster (events : List NormalizedEvent) : ClusteredEvent :=
  let sortedEvents := stableSortBy memberLe events
  let primaryEvent := sortedEvents.headD default
  let allTickers := sortedEvents.foldl (fun acc e => e.tickerCodes.foldl addSet acc) []
  let sourceNames := dedupInsertion (sortedEvents.map (·.sourceName))
  let impact := determineImpact sortedEvents
  let clusterId := generateClusterId sortedEvents
  { clusterId := clusterId
    events := sortedEvents
    primaryTicker := (match primaryEvent.tickerCodes.head? with
      | some t => t
      | none => "")
    allTickers := allTickers
    title := primaryEvent.title
    impact := impact
    eventType := primaryEvent.eventType
    publishedAt := primaryEvent.publishedAt
    sources := sourceNames.take 2
    summary := none
    reasoning := none
    counterReasoning := none }

/-- Model of `shouldDeliver` in `clusteringService.ts`: the cluster has at
least one tier-A member or at least two tier-B members. -/
def shouldDeliver (cluster : ClusteredEvent) : Bool :=
  let countA := (cluster.events.filter (fun e => e.tier = SourceTier.A)).length
  let countB := (cluster.events.filter (fun e => e.tier = SourceTier.B)).length
  decide (0 < countA ∨ 2 ≤ countB)

/-- Clusters are sorted newest first (comparator
`(a, b) => time b - time a`, as "compare ≤ 0"). -/
def clusterTimeLe (a b : ClusteredEvent) : Bool :=
  decide (b.publishedAt ≤ a.publishedAt)

/-- Loop of `applyCooldown`: walk the sorted cluster list, merging every
not-yet-processed cluster with the same primary ticker, same event type
and publish time within the cooldown window. -/
def cooldownLoop (cooldownMs : ℤ) (sorted : List ClusteredEvent) :
    List ClusteredEvent → List String → List ClusteredEvent
  | [], _ => []
  | c :: rest, processed =>
      if c.clusterId ∈ processed then cooldownLoop cooldownMs sorted rest processed
      else
        let mergeables := sorted.filter (fun d =>
          decide (d.clusterId ∉ processed) && decide (d.clusterId ≠ c.clusterId) &&
          decide (|c.publishedAt - d.publishedAt| ≤ cooldownMs) &&
          decide (d.primaryTicker = c.primaryTicker) &&
          decide (d.eventType = c.eventType))
        if mergeables.isEmpty then
          c :: cooldownLoop cooldownMs sorted rest (c.clusterId :: processed)
        else
          createCluster (c.events ++ (mergeables.map (·.events)).flatten) ::
            cooldownLoop cooldownMs sorted rest
              ((c.clusterId :: processed) ++ mergeables.map (·.clusterId))

/-- Model of `applyCooldown` in `clusteringService.ts` (default window 30
minutes): merge clusters of the same theme within the cooldown window. -/
def applyCooldown (clusters : List ClusteredEvent) (cooldownMinutes : ℤ := 30) :
    List ClusteredEvent :=
  if clusters.isEmpty then []
  else
    let cooldownMs := cooldownMinutes * 60 * 1000
    let sorted := stableSortBy clusterTimeLe clusters
    cooldownLoop cooldownMs sorted sorted []

/-- User profile (`UserProfile` in `src/types/events.ts`).  The optional
`positions` record and the optional `eventTypeWeights` record are
association lists (JavaScript objects hold one value per key). -/
structure UserProfile where
  userId : String
  watchlist : List String
  positions : Option (List (String × ℚ))
  eventTypeWeights : Option (List (EventType × ℚ))
  readEvents : List String
deriving DecidableEq, Repr, Inhabited

/-- Personalized event (`PersonalizedEvent extends ClusteredEvent`). -/
structure PersonalizedEvent extends ClusteredEvent where
  relevanceScore : ℤ
  personalImpact : ImpactLevel
  scoreReason : String
deriving DecidableEq, Repr, Inhabited

/-- Default event-type weights `DEFAULT_EVENT_TYPE_WEIGHTS` of
`personalizationService.ts`. -/
def DEFAULT_EVENT_TYPE_WEIGHTS : EventType → ℚ
  | .upwardRevision => 1.5
  | .capitalPolicy => 1.4
  | .earnings => 1.3
  | .guidance => 1.2
  | .partnership => 1.1
  | .orderWin => 1.0
  | .newProduct => 0.9
  | .incident => 1.4
  | .regulation => 1.2
  | .other => 0.5

/-- Impact-level score table `IMPACT_SCORE` of
`personalizationService.ts` (強 100, 中 60, 弱 30). -/
def IMPACT_SCORE : ImpactLevel → ℚ
  | .strong => 100
  | .medium => 60
  | .weak => 30

/-- First value stored under a key of an association list (JavaScript
object lookup). -/
def lookupW [DecidableEq κ] (l : List (κ × ℚ)) (k : κ) : Option ℚ :=
  (l.find? (fun p => p.1 = k)).map (·.2)

/-- Resolved per-category weight
`(profile.eventTypeWeights || {})[t] || DEFAULT_EVENT_TYPE_WEIGHTS[t]`:
an absent record, an absent key, and a (falsy) zero override all fall
back to the default table. -/
def resolvedTypeWeight (profile : UserProfile) (t : EventType) : ℚ :=
  match profile.eventTypeWeights with
  | none => DEFAULT_EVENT_TYPE_WEIGHTS t
  | some w =>
      match lookupW w t with
      | none => DEFAULT_EVENT_TYPE_WEIGHTS t
      | some x => if x = 0 then DEFAULT_EVENT_TYPE_WEIGHTS t else x

/-- JavaScript `Math.round`: round half toward positive infinity. -/
def jsRound (q : ℚ) : ℤ := ⌊q + 1 / 2⌋

/-- JavaScript `Number.prototype.toFixed(0)`: round to the nearest
integer, ties toward the larger integer, with the sign peeled off
first (so `(-0.4).toFixed(0)` is `"-0"`). -/
def toFixed0 (q : ℚ) : String :=
  if q < 0 then "-" ++ toString ⌊-q + 1 / 2⌋ else toString ⌊q + 1 / 2⌋

/-- Position lookup `positions[ticker] || 0`. -/
def posLookup (positions : List (String × ℚ)) (t : String) : ℚ :=
  ((positions.find? (fun p => p.1 = t)).map (·.2)).getD 0

/-- Result record of `calculateRelevanceScore`. -/
structure ScoreResult where
  score : ℤ
  reason : String
deriving DecidableEq, Repr, Inhabited

/-- Reason string returned when no cluster ticker is on the watchlist. -/
def noTickerMatchReason : String := "ウォッチリストに該当銘柄なし"

/-- Model of `calculateRelevanceScore` in `personalizationService.ts`:
additive score over ticker match, portfolio weighting, event-type
preference, base impact and multi-source boost, clamped to [0, 100] and
rounded, together with the reason trail. -/
def calculateRelevanceScore (event : ClusteredEvent) (profile : UserProfile) :
    ScoreResult :=
  let matchedTickers := event.allTickers.filter (fun t => t ∈ profile.watchlist)
  if matchedTickers.isEmpty then
    { score := 0, reason := noTickerMatchReason }
  else
    let score1 : ℚ := 30
    let reasons1 : List String :=
      ["ウォッチリスト銘柄: " ++ String.intercalate ", " matchedTickers]
    let step2 : ℚ × List String :=
      match profile.positions with
      | none => (score1, reasons1)
      | some positions =>
          let totalShares := (positions.map (·.2)).sum
          let matchedShares :=
            matchedTickers.foldl (fun s t => s + posLookup positions t) 0
          if 0 < totalShares then
            let positionWeight := matchedShares / totalShares
            let positionBoost := positionWeight * 20
            (score1 + positionBoost,
              if 5 < positionBoost then
                reasons1 ++ ["保有比率: " ++ toFixed0 (positionWeight * 100) ++
                  "% (+" ++ toFixed0 positionBoost ++ "pt)"]
              else reasons1)
          else (score1, reasons1)
    let typeWeight := resolvedTypeWeight profile event.eventType
    let typeBoost := (typeWeight - 1) * 15
    let score3 := step2.1 + typeBoost
    let reasons3 :=
      if 2 < |typeBoost| then
        step2.2 ++ ["イベント種別: " ++ eventTypeStr event.eventType ++ " (" ++
          (if 0 < typeBoost then "+" else "") ++ toFixed0 typeBoost ++ "pt)"]
      else step2.2
    let impactBoost := IMPACT_SCORE event.impact * (0.2 : ℚ)
    let score4 := score3 + impactBoost
    let reasons4 := reasons3 ++
      ["影響度: " ++ impactStr event.impact ++ " (+" ++ toFixed0 impactBoost ++ "pt)"]
    let step5 : ℚ × List String :=
      if 2 ≤ event.sources.length then
        (score4 + 10,
          reasons4 ++ ["複数ソース: " ++ toString event.sources.length ++ "件 (+10pt)"])
      else (score4, reasons4)
    let clamped := min 100 (max 0 step5.1)
    { score := jsRound clamped, reason := String.intercalate "; " step5.2 }

/-- Model of `determinePersonalImpact` in `personalizationService.ts`:
upgrade-only adjustment of the base impact from the relevance score and
the resolved event-type weight. -/
def determinePersonalImpact (event : ClusteredEvent) (profile : UserProfile)
    (relevanceScore : ℤ) : ImpactLevel :=
  let baseImpact := event.impact
  if baseImpact = .strong then .strong
  else if baseImpact = .weak ∧ 70 ≤ relevanceScore then .medium
  else if baseImpact = .medium ∧ 85 ≤ relevanceScore then .strong
  else
    let typeWeight := resolvedTypeWeight profile event.eventType
    if (1.4 : ℚ) ≤ typeWeight ∧ baseImpact = .medium then .strong
    else baseImpact

/-- Model of `personalizeEvent` in `personalizationService.ts`. -/
def personalizeEvent (event : ClusteredEvent) (profile : UserProfile) :
    PersonalizedEvent :=
  let r := calculateRelevanceScore event profile
  let personalImpact := determinePersonalImpact event profile r.score
  { event with
    relevanceScore := r.score
    personalImpact := personalImpact
    scoreReason := r.reason }

/-- Model of `personalizeEvents` in `personalizationService.ts`: map and
keep only events with positive relevance score. -/
def personalizeEvents (events : List ClusteredEvent) (profile : UserProfile) :
    List PersonalizedEvent :=
  (events.map (fun e => personalizeEvent e profile)).filter
    (fun e => decide (0 < e.relevanceScore))

/-- Ranking configuration (`RankingConfig` in `src/types/events.ts`). -/
structure RankingConfig where
  relevanceWeight : ℚ
  recencyWeight : ℚ
  impactWeight : ℚ
  multiSourceBoost : ℚ
deriving DecidableEq, Repr, Inhabited

/-- Default ranking configuration `DEFAULT_RANKING_CONFIG` of
`rankingService.ts`. -/
def DEFAULT_RANKING_CONFIG : RankingConfig :=
  { relevanceWeight := 0.5
    recencyWeight := 0.3
    impactWeight := 0.2
    multiSourceBoost := 1.15 }

/-- Impact-level ranking score table `IMPACT_RANKING_SCORE` of
`rankingService.ts`. -/
def IMPACT_RANKING_SCORE : ImpactLevel → ℚ
  | .strong => 100
  | .medium => 60
  | .weak => 30

/-- Age of an event in hours relative to the reference time, as computed
by `calculateRecencyScore` (`ageMs / (1000 * 60 * 60)`). -/
def ageHoursOf (publishedAt referenceTime : ℤ) : ℚ :=
  ((referenceTime - publishedAt : ℤ) : ℚ) / (3600000 : ℚ)

/-- Model of `calculateRecencyScore` in `rankingService.ts`: step function
of the age in hours relative to the reference time. -/
def calculateRecencyScore (publishedAt referenceTime : ℤ) : ℕ :=
  if ageHoursOf publishedAt referenceTime < 0 then 100
  else if ageHoursOf publishedAt referenceTime < 1 then 100
  else if ageHoursOf publishedAt referenceTime < 6 then 90
  else if ageHoursOf publishedAt referenceTime < 24 then 70
  else if ageHoursOf publishedAt referenceTime < 48 then 40
  else if ageHoursOf publishedAt referenceTime < 168 then 20
  else 0

/-- Model of `calculateRankingScore` in `rankingService.ts`: weighted
composite of relevance, recency and personal impact, boosted for
multi-source clusters, clamped to [0, 100]. -/
def calculateRankingScore (event : PersonalizedEvent) (config : RankingConfig)
    (referenceTime : ℤ) : ℚ :=
  let relevanceScore : ℚ := (event.relevanceScore : ℚ)
  let recencyScore : ℚ := (calculateRecencyScore event.publishedAt referenceTime : ℚ)
  let impactScore : ℚ := IMPACT_RANKING_SCORE event.personalImpact
  let compositeScore :=
    relevanceScore * config.relevanceWeight +
    recencyScore * config.recencyWeight +
    impactScore * config.impactWeight
  let boosted :=
    if 2 ≤ event.sources.length then compositeScore * config.multiSourceBoost
    else compositeScore
  min 100 (max 0 boosted)

/-- Model of `rankEvents` in `rankingService.ts`: decorate with the
composite score, sort stably by score descending, strip the score. -/
def rankEvents (events : List PersonalizedEvent) (config : RankingConfig)
    (referenceTime : ℤ) : List PersonalizedEvent :=
  let scoredEvents := events.map (fun e => (e, calculateRankingScore e config referenceTime))
  let sorted := stableSortBy (fun a b => decide (b.2 ≤ a.2)) scoredEvents
  sorted.map (·.1)

/-- Model of `rankEventsWithTierPriority` in `rankingService.ts`: rank the
base-impact-`強` partition and the rest independently and concatenate the
strong partition first. -/
def rankEventsWithTierPriority (events : List PersonalizedEvent)
    (config : RankingConfig) (referenceTime : ℤ) : List PersonalizedEvent :=
  let tierA := events.filter (fun e => e.impact = ImpactLevel.strong)
  let tierBC := events.filter (fun e => e.impact ≠ ImpactLevel.strong)
  let rankedA := rankEvents tierA config referenceTime
  let rankedBC := rankEvents tierBC config referenceTime
  rankedA ++ rankedBC

/-- JavaScript `String.prototype.trim`. -/
def jsTrim (l : List Char) : List Char :=
  ((l.dropWhile isJsWhitespace).reverse.dropWhile isJsWhitespace).reverse

/-- Numeric value of a digit string, modelling `parseInt(s, 10)` on an
all-digit string. -/
def digitsVal (l : List Char) : ℕ :=
  l.foldl (fun a c => 10 * a + (c.toNat - 48)) 0

/-- Model of `normalizeTickerCode` in the normalization service: trim,
strip non-digits, truncate to 4 characters, then require exactly 4 digits
with numeric value in [1000, 9999]. -/
def normalizeTickerCode (code : String) : Option String :=
  let cleaned := ((jsTrim code.data).filter (fun c => c.isDigit)).take 4
  if cleaned.length = 4 then
    let num := digitsVal cleaned
    if 1000 ≤ num ∧ num ≤ 9999 then some ⟨cleaned⟩ else none
  else none

/-- Company-name → ticker lookup table `COMPANY_TICKER_MAP` of the
normalization service, in object insertion order. -/
def COMPANY_TICKER_MAP : List (String × String) :=
  [("トヨタ自動車", "7203"), ("トヨタ", "7203"), ("TOYOTA", "7203")]

/-- Whether the second list begins with the first one. -/
def startsWithSeq [DecidableEq α] : List α → List α → Bool
  | [], _ => true
  | _ :: _, [] => false
  | p :: ps, s :: ss => p = s && startsWithSeq ps ss

/-- Contiguous-subsequence test, modelling `String.prototype.includes`. -/
def containsSeq [DecidableEq α] (pat : List α) : List α → Bool
  | [] => pat.isEmpty
  | c :: rest => startsWithSeq pat (c :: rest) || containsSeq pat rest

/-- Model of `resolveTickerCodes` in the normalization service: validate
the declared codes, add tickers of company names found in the context
text, deduplicate (set semantics) and sort with the default string
comparator. -/
def resolveTickerCodes (codes : List String) (context : String) : List String :=
  let fromDeclared := codes.foldl (fun acc c =>
    match normalizeTickerCode c with
    | some t => addSet acc t
    | none => acc) []
  let withNames := COMPANY_TICKER_MAP.foldl (fun acc p =>
    if containsSeq p.1.data context.data then addSet acc p.2 else acc) fromDeclared
  stableSortBy strLe withNames

/-- Modelled from the spec: the repository's `normalizeUrl` calls the
WHATWG `URL` platform builtin (`new URL`, `searchParams.delete`,
`toString`), which is not part of the repository's sources.  `JsUrl` and
the parse/serialize functions below are a simplified executable model of
that builtin: a URL is split into scheme, optional authority, path, query
and fragment; the scheme is validated (leading letter, then letters,
digits, `+`, `-`, `.`) and lowercased; no percent-encoding, host
canonicalization or path normalization is modelled. -/
structure JsUrl where
  scheme : List Char
  authority : Option (List Char)
  path : List Char
  query : Option (List Char)
  fragment : Option (List Char)
deriving DecidableEq, Repr

/-- Characters allowed after the first character of a URL scheme. -/
def validSchemeChar (c : Char) : Bool :=
  c.isAlpha || c.isDigit || c = '+' || c = '-' || c = '.'

/-- Scheme validity: nonempty, starts with a letter. -/
def validScheme : List Char → Bool
  | [] => false
  | c :: rest => c.isAlpha && rest.all validSchemeChar

/-- Split a list at the first occurrence of `target`, which is dropped. -/
def splitFirst [DecidableEq α] (target : α) : List α → Option (List α × List α)
  | [] => none
  | c :: rest =>
      if c = target then some ([], rest)
      else (splitFirst target rest).map (fun p => (c :: p.1, p.2))

/-- Characters ending the authority component. -/
def urlDelim (c : Char) : Bool := c = '/' || c = '?' || c = '#'

/-- Characters ending the path component. -/
def pqDelim (c : Char) : Bool := c = '?' || c = '#'

/-- Fragment of a URL remainder that starts at a `#` delimiter. -/
def parseFrag : List Char → Option (List Char)
  | [] => none
  | _ :: frag => some frag

/-- Query and fragment of a URL remainder that starts at a `?` or `#`
delimiter (or is empty). -/
def parseQF : List Char → Option (List Char) × Option (List Char)
  | [] => (none, none)
  | c :: rest =>
      if c = '?' then
        (some (rest.takeWhile (fun ch => ch ≠ '#')),
          parseFrag (rest.dropWhile (fun ch => ch ≠ '#')))
      else (none, some rest)

/-- Parse path, query and fragment from the remainder of a URL. -/
def parseTail (r : List Char) :
    List Char × Option (List Char) × Option (List Char) :=
  (r.takeWhile (fun c => ¬ pqDelim c), parseQF (r.dropWhile (fun c => ¬ pqDelim c)))

/-- Model of `new URL(url)`: `none` is the model of the constructor
throwing. -/
def parseUrl (url : String) : Option JsUrl :=
  (splitFirst ':' url.data).bind fun sr =>
      if validScheme (sr.1.map jsToLower) then
        if startsWithSeq ['/', '/'] sr.2 then
          some ⟨sr.1.map jsToLower,
            some (((sr.2.drop 2).takeWhile (fun c => ¬ urlDelim c)).map jsToLower),
            (parseTail ((sr.2.drop 2).dropWhile (fun c => ¬ urlDelim c))).1,
            (parseTail ((sr.2.drop 2).dropWhile (fun c => ¬ urlDelim c))).2.1,
            (parseTail ((sr.2.drop 2).dropWhile (fun c => ¬ urlDelim c))).2.2⟩
        else
          some ⟨sr.1.map jsToLower, none, (parseTail sr.2).1,
            (parseTail sr.2).2.1, (parseTail sr.2).2.2⟩
      else none

/-- Serialized form of the optional authority (with its `//` marker). -/
def authorityPart : Option (List Char) → List Char
  | some a => '/' :: '/' :: a
  | none => []

/-- Serialized form of the optional query (with its `?` marker). -/
def queryPart : Option (List Char) → List Char
  | some q => '?' :: q
  | none => []

/-- Serialized form of the optional fragment (with its `#` marker). -/
def fragmentPart : Option (List Char) → List Char
  | some f => '#' :: f
  | none => []

/-- Model of `URL.prototype.toString`. -/
def serializeUrl (u : JsUrl) : String :=
  ⟨u.scheme ++ [':'] ++ authorityPart u.authority ++ u.path ++
    queryPart u.query ++ fragmentPart u.fragment⟩

/-- Split a query string on `&`. -/
def splitOnAmp : List Char → List (List Char)
  | [] => [[]]
  | c :: rest =>
      if c = '&' then [] :: splitOnAmp rest
      else
        match splitOnAmp rest with
        | [] => [[c]]
        | p :: ps => (c :: p) :: ps

/-- Model of `URLSearchParams` parsing: split on `&`, drop empty pieces,
split each piece at the first `=`. -/
def parseParams (q : List Char) : List (List Char × List Char) :=
  ((splitOnAmp q).filter (fun p => ¬ p.isEmpty)).map (fun piece =>
    match splitFirst '=' piece with
    | some nv => nv
    | none => (piece, []))

/-- Interleave a separator character between chunks. -/
def intercalateChar (c : Char) : List (List Char) → List Char
  | [] => []
  | [x] => x
  | x :: xs => x ++ c :: intercalateChar c xs

/-- Model of `URLSearchParams` serialization (no percent-encoding). -/
def serializeParams (ps : List (List Char × List Char)) : List Char :=
  intercalateChar '&' (ps.map (fun p => p.1 ++ '=' :: p.2))

/-- Tracking parameter names removed by `normalizeUrl`. -/
def trackingParams : List (List Char) :=
  ["utm_source".data, "utm_medium".data, "utm_campaign".data, "ref".data]

/-- Query cleaning of `normalizeUrl`: delete the tracking parameters and
reserialize; an emptied parameter list collapses the query away. -/
def cleanQuery : Option (List Char) → Option (List Char)
  | none => none
  | some q =>
      if ((parseParams q).filter (fun p => p.1 ∉ trackingParams)).isEmpty then none
      else some (serializeParams
        ((parseParams q).filter (fun p => p.1 ∉ trackingParams)))

/-- Cleaning steps of `normalizeUrl` on a parsed URL: drop the tracking
query parameters (an emptied query collapses to no query), clear the
fragment, upgrade the `http` scheme to `https`. -/
def cleanUrl (u : JsUrl) : JsUrl :=
  { scheme := if u.scheme = "http".data then "https".data else u.scheme
    authority := u.authority
    path := u.path
    query := cleanQuery u.query
    fragment := none }

/-- Model of `normalizeUrl` in the normalization service: parse, clean and
reserialize; on parse failure return the input unchanged. -/
def normalizeUrl (url : String) : String :=
  match parseUrl url with
  | none => url
  | some u => serializeUrl (cleanUrl u)

/-- Ordinal rank of an impact level on the scale 弱 < 中 < 強. -/
def impactRank : ImpactLevel → ℕ
  | .weak => 0
  | .medium => 1
  | .strong => 2

/-- Sample tier-A event used by concrete witnesses. -/
def sampleEventA : NormalizedEvent :=
  { id := "a1", tier := .A, title := "トヨタ自動車｜業績予想の上方修正",
    url := "https://example.com/a", publishedAt := 0, fetchedAt := 0,
    tickerCodes := ["7203"], eventType := .upwardRevision,
    sourceName := "EDINET", excerpt := none }

/-- Sample tier-B event used by concrete witnesses. -/
def sampleEventB : NormalizedEvent :=
  { id := "b1", tier := .B, title := "トヨタ自動車、業績予想を上方修正",
    url := "https://example.com/b", publishedAt := 600000, fetchedAt := 600000,
    tickerCodes := ["7203"], eventType := .upwardRevision,
    sourceName := "PR TIMES", excerpt := none }

/-- Second sample tier-B event used by concrete witnesses. -/
def sampleEventB2 : NormalizedEvent :=
  { id := "b2", tier := .B, title := "トヨタ自動車が業績予想を上方修正",
    url := "https://example.com/b2", publishedAt := 1200000, fetchedAt := 1200000,
    tickerCodes := ["7203"], eventType := .upwardRevision,
    sourceName := "会社IR", excerpt := none }

/-- Sample cluster with base impact `中` used by concrete witnesses. -/
def sampleCluster : ClusteredEvent :=
  { clusterId := "cl1", events := [sampleEventB], primaryTicker := "7203",
    allTickers := ["7203"], title := "トヨタ自動車、業績予想を上方修正",
    impact := .medium, eventType := .earnings, publishedAt := 600000,
    sources := ["PR TIMES"], summary := none, reasoning := none,
    counterReasoning := none }

/-- Sample cluster sharing ticker and category with `sampleCluster` but 15
minutes later, used by the cooldown witness. -/
def sampleCluster2 : ClusteredEvent :=
  { clusterId := "cl2", events := [sampleEventB2], primaryTicker := "7203",
    allTickers := ["7203"], title := "トヨタ自動車が業績予想を上方修正",
    impact := .medium, eventType := .earnings, publishedAt := 1500000,
    sources := ["会社IR"], summary := none, reasoning := none,
    counterReasoning := none }

/-- Sample cluster whose tickers avoid the sample watchlist. -/
def sampleClusterNoMatch : ClusteredEvent :=
  { clusterId := "cl3", events := [], primaryTicker := "9984",
    allTickers := ["9984"], title := "ソフトバンクグループが決算を発表",
    impact := .weak, eventType := .earnings, publishedAt := 0,
    sources := ["PR TIMES"], summary := none, reasoning := none,
    counterReasoning := none }

/-- Sample profile watching ticker 7203. -/
def sampleProfile : UserProfile :=
  { userId := "u1", watchlist := ["7203"], positions := none,
    eventTypeWeights := none, readEvents := [] }

theorem createCluster_events (es : List NormalizedEvent) :
    (createCluster es).events = stableSortBy memberLe es := rfl

theorem createCluster_impact (es : List NormalizedEvent) :
    (createCluster es).impact = determineImpact (stableSortBy memberLe es) := rfl

theorem filter_stableSortBy_length (le : α → α → Bool) (p : α → Bool) (l : List α) :
    ((stableSortBy le l).filter p).length = (l.filter p).length :=
  ((stableSortBy_perm le l).filter p).length_eq

theorem shouldDeliver_createCluster (es : List NormalizedEvent) :
    shouldDeliver (createCluster es) =
      decide (0 < (es.filter (fun e => e.tier = SourceTier.A)).length ∨
        2 ≤ (es.filter (fun e => e.tier = SourceTier.B)).length) := by
  unfold shouldDeliver
  rw [createCluster_events, filter_stableSortBy_length, filter_stableSortBy_length]

theorem impact_createCluster (es : List NormalizedEvent) :
    (createCluster es).impact = determineImpact es := by
  rw [createCluster_impact]
  unfold determineImpact
  rw [filter_stableSortBy_length, filter_stableSortBy_length]

/-- C1: for every cluster built by the clusterer's build step,
`shouldDeliver` holds exactly when the cluster has at least one tier-A
member or at least two tier-B members, which is exactly the condition for
base impact `強`; in particular a single tier-A member delivers with
impact `強`, a single tier-B member does not deliver and has impact `中`,
and two tier-B members deliver with impact `強`. -/
theorem c1_delivery_gate (es : List NormalizedEvent) :
    (shouldDeliver (createCluster es) = true ↔
      1 ≤ (es.filter (fun e => e.tier = SourceTier.A)).length ∨
      2 ≤ (es.filter (fun e => e.tier = SourceTier.B)).length)
    ∧ (shouldDeliver (createCluster es) = true ↔
      (createCluster es).impact = ImpactLevel.strong)
    ∧ (∀ e : NormalizedEvent, e.tier = SourceTier.A →
        shouldDeliver (createCluster [e]) = true ∧
        (createCluster [e]).impact = ImpactLevel.strong)
    ∧ (∀ e : NormalizedEvent, e.tier = SourceTier.B →
        shouldDeliver (createCluster [e]) = false ∧
        (createCluster [e]).impact = ImpactLevel.medium)
    ∧ (∀ e f : NormalizedEvent, e.tier = SourceTier.B → f.tier = SourceTier.B →
        shouldDeliver (createCluster [e, f]) = true ∧
        (createCluster [e, f]).impact = ImpactLevel.strong) := by
  have hiff : ∀ l : List NormalizedEvent,
      shouldDeliver (createCluster l) = true ↔
        1 ≤ (l.filter (fun e => e.tier = SourceTier.A)).length ∨
        2 ≤ (l.filter (fun e => e.tier = SourceTier.B)).length := by
    intro l
    rw [shouldDeliver_createCluster]
    simp [Nat.lt_iff_add_one_le]
  have himp : ∀ l : List NormalizedEvent,
      shouldDeliver (createCluster l) = true ↔
        (createCluster l).impact = ImpactLevel.strong := by
    intro l
    rw [shouldDeliver_createCluster, impact_createCluster]
    unfold determineImpact
    by_cases h : 0 < (l.filter (fun e => e.tier = SourceTier.A)).length ∨
        2 ≤ (l.filter (fun e => e.tier = SourceTier.B)).length
    · simp [h]
    · rw [decide_eq_false h, if_neg h]
      constructor
      · intro hfalse
        exact absurd hfalse (by simp)
      · intro hstrong
        by_cases h1 : (l.filter (fun e => e.tier = SourceTier.B)).length = 1 <;>
          simp [h1] at hstrong
  refine ⟨hiff es, himp es, ?_, ?_, ?_⟩
  · intro e he
    have h1 : shouldDeliver (createCluster [e]) = true := by
      rw [hiff [e]]
      left
      simp [List.filter, he]
    exact ⟨h1, (himp [e]).mp h1⟩
  · intro e he
    constructor
    · rw [shouldDeliver_createCluster]
      have : e.tier ≠ SourceTier.A := by rw [he]; simp
      simp [List.filter, he, this]
    · rw [impact_createCluster]
      have : e.tier ≠ SourceTier.A := by rw [he]; simp
      unfold determineImpact
      simp [List.filter, he, this]
  · intro e f he hf
    have h1 : shouldDeliver (createCluster [e, f]) = true := by
      rw [hiff [e, f]]
      right
      simp [List.filter, he, hf]
    exact ⟨h1, (himp [e, f]).mp h1⟩

/-- Concrete instantiation of the C1 theorem's conditional conjuncts. -/
theorem c1_delivery_gate_witness :
    (shouldDeliver (createCluster [sampleEventA]) = true ∧
      (createCluster [sampleEventA]).impact = ImpactLevel.strong) ∧
    (shouldDeliver (createCluster [sampleEventB]) = false ∧
      (createCluster [sampleEventB]).impact = ImpactLevel.medium) ∧
    (shouldDeliver (createCluster [sampleEventB, sampleEventB2]) = true ∧
      (createCluster [sampleEventB, sampleEventB2]).impact = ImpactLevel.strong) := by
  obtain ⟨-, -, h3, h4, h5⟩ := c1_delivery_gate []
  exact ⟨h3 sampleEventA rfl, h4 sampleEventB rfl, h5 sampleEventB sampleEventB2 rfl rfl⟩

/-- C2: the personal impact never falls below the base impact on the
ordinal scale 弱 < 中 < 強; `強` is returned unchanged; `弱` upgrades to
`中` exactly when the relevance score is at least 70; `中` upgrades to `強`
exactly when the score is at least 85 or the resolved category weight is
at least 1.4; otherwise the base impact is returned unchanged. -/
theorem c2_personal_impact (c : ClusteredEvent) (p : UserProfile) (s : ℤ)
    (_h0 : 0 ≤ s) (_h100 : s ≤ 100) :
    impactRank c.impact ≤ impactRank (determinePersonalImpact c p s)
    ∧ (c.impact = ImpactLevel.strong →
        determinePersonalImpact c p s = ImpactLevel.strong)
    ∧ (c.impact = ImpactLevel.weak →
        (determinePersonalImpact c p s = ImpactLevel.medium ↔ 70 ≤ s))
    ∧ (c.impact = ImpactLevel.weak → ¬ 70 ≤ s →
        determinePersonalImpact c p s = ImpactLevel.weak)
    ∧ (c.impact = ImpactLevel.medium →
        (determinePersonalImpact c p s = ImpactLevel.strong ↔
          85 ≤ s ∨ (1.4 : ℚ) ≤ resolvedTypeWeight p c.eventType))
    ∧ (c.impact = ImpactLevel.medium → ¬ 85 ≤ s →
        resolvedTypeWeight p c.eventType < (1.4 : ℚ) →
        determinePersonalImpact c p s = ImpactLevel.medium) := by
  unfold determinePersonalImpact
  rcases himp : c.impact with h | h | h <;> simp only [himp] <;> split_ifs <;>
    simp_all [impactRank]

/-- Concrete instantiation of the C2 theorem at score 50. -/
theorem c2_personal_impact_witness :
    determinePersonalImpact sampleCluster sampleProfile 50 = ImpactLevel.medium :=
  (c2_personal_impact sampleCluster sampleProfile 50 (by decide) (by decide)).2.2.2.2.2
    rfl (by decide)
    (by norm_num [sampleCluster, sampleProfile, resolvedTypeWeight,
      DEFAULT_EVENT_TYPE_WEIGHTS])

/-- C3: a cluster with no watchlist overlap scores exactly 0 with the
no-matching-ticker reason, its personalized form is excluded from every
`personalizeEvents` output, and every event `personalizeEvents` returns
has relevance score strictly greater than 0. -/
theorem c3_relevance_floor (c : ClusteredEvent) (p : UserProfile) :
    ((∀ t ∈ c.allTickers, t ∉ p.watchlist) →
      calculateRelevanceScore c p = { score := 0, reason := noTickerMatchReason }
      ∧ ∀ es : List ClusteredEvent, personalizeEvent c p ∉ personalizeEvents es p)
    ∧ (∀ es : List ClusteredEvent, ∀ pe ∈ personalizeEvents es p,
        0 < pe.relevanceScore) := by
  have hmem : ∀ (es : List ClusteredEvent) (pe : PersonalizedEvent),
      pe ∈ personalizeEvents es p → 0 < pe.relevanceScore := by
    intro es pe hpe
    unfold personalizeEvents at hpe
    have := (List.mem_filter.mp hpe).2
    exact of_decide_eq_true this
  refine ⟨?_, fun es pe hpe => hmem es pe hpe⟩
  intro h
  have hfil : c.allTickers.filter (fun t => t ∈ p.watchlist) = [] := by
    rw [List.filter_eq_nil_iff]
    intro t ht
    simpa using h t ht
  have hscore : calculateRelevanceScore c p =
      { score := 0, reason := noTickerMatchReason } := by
    unfold calculateRelevanceScore
    rw [hfil]
    rfl
  refine ⟨hscore, ?_⟩
  intro es hcontra
  have h0 : (personalizeEvent c p).relevanceScore = 0 := by
    unfold personalizeEvent
    rw [hscore]
  have := hmem es (personalizeEvent c p) hcontra
  omega

/-- Concrete instantiation of the C3 theorem: a cluster about ticker 9984
scores 0 against a watchlist holding only 7203. -/
theorem c3_relevance_floor_witness :
    calculateRelevanceScore sampleClusterNoMatch sampleProfile =
      { score := 0, reason := noTickerMatchReason } :=
  ((c3_relevance_floor sampleClusterNoMatch sampleProfile).1 (by decide)).1

theorem calculateRelevanceScore_congr (c : ClusteredEvent) (p q : UserProfile)
    (hw : p.watchlist = q.watchlist) (hp : p.positions = q.positions)
    (ht : resolvedTypeWeight p c.eventType = resolvedTypeWeight q c.eventType) :
    calculateRelevanceScore c p = calculateRelevanceScore c q := by
  unfold calculateRelevanceScore
  rw [hw, hp, ht]

theorem determinePersonalImpact_congr (c : ClusteredEvent) (p q : UserProfile)
    (s : ℤ)
    (ht : resolvedTypeWeight p c.eventType = resolvedTypeWeight q c.eventType) :
    determinePersonalImpact c p s = determinePersonalImpact c q s := by
  unfold determinePersonalImpact
  rw [ht]

/-- C10: a per-category weight override equal to 0 behaves exactly like an
absent override (the default table is used), for both the relevance score
and the personal impact. -/
theorem c10_zero_weight_override (c : ClusteredEvent) (p : UserProfile)
    (w0 w1 : List (EventType × ℚ)) (s : ℤ)
    (h0 : lookupW w0 c.eventType = some 0)
    (h1 : lookupW w1 c.eventType = none) :
    calculateRelevanceScore c { p with eventTypeWeights := some w0 } =
      calculateRelevanceScore c { p with eventTypeWeights := some w1 }
    ∧ determinePersonalImpact c { p with eventTypeWeights := some w0 } s =
      determinePersonalImpact c { p with eventTypeWeights := some w1 } s
    ∧ resolvedTypeWeight { p with eventTypeWeights := some w0 } c.eventType =
        DEFAULT_EVENT_TYPE_WEIGHTS c.eventType := by
  have hres : ∀ w : List (EventType × ℚ),
      resolvedTypeWeight { p with eventTypeWeights := some w } c.eventType =
        match lookupW w c.eventType with
        | none => DEFAULT_EVENT_TYPE_WEIGHTS c.eventType
        | some x => if x = 0 then DEFAULT_EVENT_TYPE_WEIGHTS c.eventType else x := by
    intro w
    rfl
  have hres0 : resolvedTypeWeight { p with eventTypeWeights := some w0 } c.eventType =
      DEFAULT_EVENT_TYPE_WEIGHTS c.eventType := by
    rw [hres w0, h0]
    simp
  have hres1 : resolvedTypeWeight { p with eventTypeWeights := some w1 } c.eventType =
      DEFAULT_EVENT_TYPE_WEIGHTS c.eventType := by
    rw [hres w1, h1]
  have hrw : resolvedTypeWeight { p with eventTypeWeights := some w0 } c.eventType =
      resolvedTypeWeight { p with eventTypeWeights := some w1 } c.eventType := by
    rw [hres0, hres1]
  exact ⟨calculateRelevanceScore_congr c _ _ rfl rfl hrw,
    determinePersonalImpact_congr c _ _ s hrw, hres0⟩

/-- Concrete instantiation of the C10 theorem: overriding 決算発表 with
weight 0 equals having no override at all. -/
theorem c10_zero_weight_override_witness :
    calculateRelevanceScore sampleCluster
        { sampleProfile with eventTypeWeights := some [(EventType.earnings, 0)] } =
      calculateRelevanceScore sampleCluster
        { sampleProfile with eventTypeWeights := some [] } :=
  (c10_zero_weight_override sampleCluster sampleProfile
    [(EventType.earnings, 0)] [] 0 (by decide) (by decide)).1

theorem rankEvents_perm (es : List PersonalizedEvent) (config : RankingConfig)
    (t : ℤ) : List.Perm (rankEvents es config t) es := by
  unfold rankEvents
  have h1 := (stableSortBy_perm (fun a b : PersonalizedEvent × ℚ => decide (b.2 ≤ a.2))
    (es.map (fun e => (e, calculateRankingScore e config t)))).map
      (fun x : PersonalizedEvent × ℚ => x.1)
  have h2 : List.map (fun x : PersonalizedEvent × ℚ => x.1)
      (es.map (fun e => (e, calculateRankingScore e config t))) = es := by
    simp [Function.comp_def]
  rw [h2] at h1
  exact h1

theorem mem_rankEvents {es : List PersonalizedEvent} {config : RankingConfig}
    {t : ℤ} {e : PersonalizedEvent} : e ∈ rankEvents es config t ↔ e ∈ es :=
  (rankEvents_perm es config t).mem_iff

/-- C9: the tier-priority ranking is a permutation of its input in which
every base-impact-`強` event precedes every other event, and each of the
two partitions is the ordinary ranking of the corresponding filter of the
input with the same configuration. -/
theorem c9_tier_priority (es : List PersonalizedEvent) (config : RankingConfig)
    (t : ℤ) :
    List.Perm (rankEventsWithTierPriority es config t) es
    ∧ rankEventsWithTierPriority es config t =
        rankEvents (es.filter (fun e => e.impact = ImpactLevel.strong)) config t ++
        rankEvents (es.filter (fun e => e.impact ≠ ImpactLevel.strong)) config t
    ∧ ∃ front back, rankEventsWithTierPriority es config t = front ++ back
        ∧ (∀ e ∈ front, e.impact = ImpactLevel.strong)
        ∧ (∀ e ∈ back, e.impact ≠ ImpactLevel.strong) := by
  refine ⟨?_, rfl, ?_⟩
  · unfold rankEventsWithTierPriority
    refine ((rankEvents_perm _ config t).append (rankEvents_perm _ config t)).trans ?_
    have h := List.filter_append_perm (fun e : PersonalizedEvent =>
      decide (e.impact = ImpactLevel.strong)) es
    have hfe : (fun e : PersonalizedEvent => decide (e.impact ≠ ImpactLevel.strong)) =
        (fun x : PersonalizedEvent => !decide (x.impact = ImpactLevel.strong)) := by
      funext x
      simp [decide_not]
    rw [hfe]
    exact h
  · refine ⟨rankEvents (es.filter (fun e => e.impact = ImpactLevel.strong)) config t,
      rankEvents (es.filter (fun e => e.impact ≠ ImpactLevel.strong)) config t,
      rfl, ?_, ?_⟩
    · intro e he
      have := (List.mem_filter.mp (mem_rankEvents.mp he)).2
      exact of_decide_eq_true this
    · intro e he
      have := (List.mem_filter.mp (mem_rankEvents.mp he)).2
      exact of_decide_eq_true this

/-- C7: the recency score is the exact staircase of the event age in hours
relative to the reference time, and takes the claimed values at ages 0.5,
3, 12, 30, 100 and 200 hours. -/
theorem c7_recency_staircase (publishedAt referenceTime : ℤ) :
    (ageHoursOf publishedAt referenceTime < 0 →
      calculateRecencyScore publishedAt referenceTime = 100)
    ∧ (ageHoursOf publishedAt referenceTime < 1 →
      calculateRecencyScore publishedAt referenceTime = 100)
    ∧ (1 ≤ ageHoursOf publishedAt referenceTime →
        ageHoursOf publishedAt referenceTime < 6 →
      calculateRecencyScore publishedAt referenceTime = 90)
    ∧ (6 ≤ ageHoursOf publishedAt referenceTime →
        ageHoursOf publishedAt referenceTime < 24 →
      calculateRecencyScore publishedAt referenceTime = 70)
    ∧ (24 ≤ ageHoursOf publishedAt referenceTime →
        ageHoursOf publishedAt referenceTime < 48 →
      calculateRecencyScore publishedAt referenceTime = 40)
    ∧ (48 ≤ ageHoursOf publishedAt referenceTime →
        ageHoursOf publishedAt referenceTime < 168 →
      calculateRecencyScore publishedAt referenceTime = 20)
    ∧ (168 ≤ ageHoursOf publishedAt referenceTime →
      calculateRecencyScore publishedAt referenceTime = 0)
    ∧ calculateRecencyScore (-1800000) 0 = 100
    ∧ calculateRecencyScore (-10800000) 0 = 90
    ∧ calculateRecencyScore (-43200000) 0 = 70
    ∧ calculateRecencyScore (-108000000) 0 = 40
    ∧ calculateRecencyScore (-360000000) 0 = 20
    ∧ calculateRecencyScore (-720000000) 0 = 0 := by
  unfold calculateRecencyScore
  refine ⟨?_, ?_, ?_, ?_, ?_, ?_, ?_, by norm_num [ageHoursOf],
    by norm_num [ageHoursOf], by norm_num [ageHoursOf], by norm_num [ageHoursOf],
    by norm_num [ageHoursOf], by norm_num [ageHoursOf]⟩ <;>
    intros <;> split_ifs <;> first | rfl | linarith

/-- Concrete instantiation of the C7 theorem for the three-hour branch. -/
theorem c7_recency_staircase_witness :
    calculateRecencyScore (-10800000) 0 = 90 :=
  (c7_recency_staircase (-10800000) 0).2.2.1
    (by norm_num [ageHoursOf]) (by norm_num [ageHoursOf])

/-- C4 counterexample: the claim asserts reflexivity for every non-empty
string, but a one-character title has an empty bigram set, so its
self-similarity is 0, not 1. -/
theorem c4_similarity_reflexive_counterexample :
    ("a" : String) ≠ "" ∧ calculateSimilarity "a" "a" = 0 ∧
      calculateSimilarity "a" "a" ≠ 1 := by
  refine ⟨by decide, ?_, ?_⟩
  · rfl
  · intro h
    rw [show calculateSimilarity "a" "a" = 0 from rfl] at h
    exact absurd h (by norm_num)

/-- C4 (amended): similarity is bounded by [0, 1] for all strings, and
self-similarity is exactly 1 whenever the normalized string still has at
least 2 characters (so at least one bigram); a non-empty string whose
normalized form is shorter than 2 characters instead has self-similarity
0 by the degenerate empty-bigram rule. -/
theorem c4_similarity_bounded_reflexive (a b : String) :
    0 ≤ calculateSimilarity a b ∧ calculateSimilarity a b ≤ 1
    ∧ (2 ≤ (normalizeText a).length → calculateSimilarity a a = 1) := by
  refine ⟨?_, ?_, ?_⟩
  · simp only [calculateSimilarity]
    split_ifs with h
    · positivity
    · exact le_refl 0
  · simp only [calculateSimilarity]
    split_ifs with h
    · rw [div_le_one (by exact_mod_cast h)]
      exact_mod_cast Finset.card_le_card
        (Finset.inter_subset_left.trans Finset.subset_union_left)
    · norm_num
  · intro hlen
    simp only [calculateSimilarity]
    rw [Finset.inter_self, Finset.union_self]
    have hnil : (normalizeText a).zip (normalizeText a).tail ≠ [] := by
      intro hcontra
      have := congrArg List.length hcontra
      rw [List.length_zip, List.length_tail] at this
      simp at this
      omega
    have hpos : 0 < (getBigrams (normalizeText a)).card := by
      rw [Finset.card_pos]
      obtain ⟨x, hx⟩ := List.exists_mem_of_ne_nil _ hnil
      exact ⟨x, List.mem_toFinset.mpr hx⟩
    rw [if_pos hpos]
    rw [div_self]
    exact_mod_cast Nat.pos_iff_ne_zero.mp hpos

/-- Concrete instantiation of the amended C4 theorem: a four-character
title is self-similar with score exactly 1. -/
theorem c4_similarity_bounded_reflexive_witness :
    calculateSimilarity "abcd" "abcd" = 1 :=
  (c4_similarity_bounded_reflexive "abcd" "abcd").2.2 (by decide)

theorem cooldownLoop_pair (ms : ℤ) (a b : ClusteredEvent)
    (hab : a.clusterId ≠ b.clusterId)
    (htt : b.primaryTicker = a.primaryTicker)
    (hee : b.eventType = a.eventType)
    (hww : |a.publishedAt - b.publishedAt| ≤ ms) :
    cooldownLoop ms [a, b] [a, b] [] = [createCluster (a.events ++ b.events)] := by
  simp [cooldownLoop, List.filter, hab, Ne.symm hab, htt, hee, hww]

/-- C5: two clusters with the same primary ticker, the same event category
and publish times within the cooldown window merge, under `applyCooldown`
with a 30-minute window, into exactly one cluster rebuilt by the
build-step logic from the union of their members (newest cluster's
members first). -/
theorem c5_cooldown_merge (c1 c2 : ClusteredEvent)
    (ht : c1.primaryTicker = c2.primaryTicker)
    (he : c1.eventType = c2.eventType)
    (hw : |c1.publishedAt - c2.publishedAt| ≤ 30 * 60 * 1000)
    (hid : c1.clusterId ≠ c2.clusterId) :
    applyCooldown [c1, c2] 30 =
      [createCluster (if c1.publishedAt < c2.publishedAt
        then c2.events ++ c1.events else c1.events ++ c2.events)]
    ∧ ∀ m ∈ applyCooldown [c1, c2] 30,
        List.Perm m.events (c1.events ++ c2.events) := by
  by_cases hle : c2.publishedAt ≤ c1.publishedAt
  · have hsorted : stableSortBy clusterTimeLe [c1, c2] = [c1, c2] := by
      simp [stableSortBy, insStable, clusterTimeLe, hle]
    have hresult : applyCooldown [c1, c2] 30 =
        [createCluster (c1.events ++ c2.events)] := by
      simp only [applyCooldown, List.isEmpty_cons, Bool.false_eq_true, if_false,
        hsorted]
      exact cooldownLoop_pair _ c1 c2 hid ht.symm he.symm hw
    have hnlt : ¬ c1.publishedAt < c2.publishedAt := not_lt.mpr hle
    rw [if_neg hnlt]
    refine ⟨hresult, ?_⟩
    intro m hm
    rw [hresult] at hm
    rw [List.mem_singleton] at hm
    subst hm
    rw [createCluster_events]
    exact stableSortBy_perm _ _
  · have hlt : c1.publishedAt < c2.publishedAt := not_le.mp hle
    have hsorted : stableSortBy clusterTimeLe [c1, c2] = [c2, c1] := by
      simp [stableSortBy, insStable, clusterTimeLe, hle]
    have hresult : applyCooldown [c1, c2] 30 =
        [createCluster (c2.events ++ c1.events)] := by
      simp only [applyCooldown, List.isEmpty_cons, Bool.false_eq_true, if_false,
        hsorted]
      exact cooldownLoop_pair _ c2 c1 (Ne.symm hid) ht he
        (by rw [abs_sub_comm]; exact hw)
    rw [if_pos hlt]
    refine ⟨hresult, ?_⟩
    intro m hm
    rw [hresult] at hm
    rw [List.mem_singleton] at hm
    subst hm
    rw [createCluster_events]
    exact (stableSortBy_perm _ _).trans List.perm_append_comm

/-- Concrete instantiation of the C5 theorem: two single-member clusters
for ticker 7203, both 決算発表, 15 minutes apart, merge into one rebuilt
cluster under the 30-minute cooldown. -/
theorem c5_cooldown_merge_witness :
    applyCooldown [sampleCluster, sampleCluster2] 30 =
      [createCluster (sampleCluster2.events ++ sampleCluster.events)] :=
  (c5_cooldown_merge sampleCluster sampleCluster2 rfl rfl (by decide) (by decide)).1.trans
    (by rw [if_pos (by decide)])

/-- Validity predicate of a resolved ticker code: exactly four digit
characters with numeric value between 1000 and 9999. -/
def ValidTicker (t : String) : Prop :=
  t.data.length = 4 ∧ (∀ ch ∈ t.data, ch.isDigit = true) ∧
  1000 ≤ digitsVal t.data ∧ digitsVal t.data ≤ 9999

theorem mem_addSet [DecidableEq α] {acc : List α} {y x : α}
    (h : x ∈ addSet acc y) : x ∈ acc ∨ x = y := by
  unfold addSet at h
  split_ifs at h with hy
  · exact Or.inl h
  · rcases List.mem_append.mp h with h | h
    · exact Or.inl h
    · exact Or.inr (List.mem_singleton.mp h)

theorem nodup_addSet [DecidableEq α] {acc : List α} (y : α)
    (h : acc.Nodup) : (addSet acc y).Nodup := by
  unfold addSet
  split_ifs with hy
  · exact h
  · simpa [List.nodup_append, hy] using h

theorem foldl_invariant {β : Type} (P : α → Prop) (f : List α → β → List α)
    (hf : ∀ acc x, (∀ y ∈ acc, P y) → ∀ y ∈ f acc x, P y) :
    ∀ (l : List β) (acc : List α), (∀ y ∈ acc, P y) → ∀ y ∈ l.foldl f acc, P y := by
  intro l
  induction l with
  | nil => intro acc hacc y hy; exact hacc y hy
  | cons x xs ih => intro acc hacc y hy; exact ih (f acc x) (hf acc x hacc) y hy

theorem foldl_nodup {β : Type} [DecidableEq α] (f : List α → β → List α)
    (hf : ∀ acc x, acc.Nodup → (f acc x).Nodup) :
    ∀ (l : List β) (acc : List α), acc.Nodup → (l.foldl f acc).Nodup := by
  intro l
  induction l with
  | nil => intro acc hacc; exact hacc
  | cons x xs ih => intro acc hacc; exact ih (f acc x) (hf acc x hacc)

instance : DecidablePred ValidTicker := fun t => by
  unfold ValidTicker
  infer_instance

theorem normalizeTickerCode_valid {c t : String}
    (h : normalizeTickerCode c = some t) : ValidTicker t := by
  simp only [normalizeTickerCode] at h
  split_ifs at h with h4 hr
  · rcases hr with ⟨hlo, hhi⟩
    obtain rfl : t = ⟨((jsTrim c.data).filter (fun ch => ch.isDigit)).take 4⟩ :=
      (Option.some_injective _ h).symm
    refine ⟨h4, ?_, hlo, hhi⟩
    intro ch hch
    exact (List.mem_filter.mp (List.take_subset 4 _ hch)).2

theorem lexLe_total (a b : List Char) : lexLe a b = true ∨ lexLe b a = true := by
  induction a generalizing b with
  | nil => left; rfl
  | cons x xs ih =>
      cases b with
      | nil => right; rfl
      | cons y ys =>
          by_cases hxy : x.toNat < y.toNat
          · left
            simp [lexLe, hxy]
          · by_cases hyx : y.toNat < x.toNat
            · right
              simp [lexLe, hyx]
            · have hx : ¬ y.toNat < x.toNat := hyx
              rcases ih ys with h | h
              · left
                simpa [lexLe, hxy, hyx] using h
              · right
                simpa [lexLe, hxy, hyx] using h

theorem lexLe_trans {a b c : List Char} (hab : lexLe a b = true)
    (hbc : lexLe b c = true) : lexLe a c = true := by
  induction a generalizing b c with
  | nil => rfl
  | cons x xs ih =>
      cases b with
      | nil => simp [lexLe] at hab
      | cons y ys =>
          cases c with
          | nil => simp [lexLe] at hbc
          | cons z zs =>
              unfold lexLe at hab hbc ⊢
              by_cases h1 : x.toNat < y.toNat
              · by_cases h2 : y.toNat < z.toNat
                · rw [if_pos (show x.toNat < z.toNat by omega)]
                · by_cases h3 : z.toNat < y.toNat
                  · rw [if_neg h2, if_pos h3] at hbc
                    exact absurd hbc (by simp)
                  · rw [if_pos (show x.toNat < z.toNat by omega)]
              · by_cases h1' : y.toNat < x.toNat
                · rw [if_neg h1, if_pos h1'] at hab
                  exact absurd hab (by simp)
                · rw [if_neg h1, if_neg h1'] at hab
                  by_cases h2 : y.toNat < z.toNat
                  · rw [if_pos (show x.toNat < z.toNat by omega)]
                  · by_cases h3 : z.toNat < y.toNat
                    · rw [if_neg h2, if_pos h3] at hbc
                      exact absurd hbc (by simp)
                    · rw [if_neg h2, if_neg h3] at hbc
                      rw [if_neg (show ¬ x.toNat < z.toNat by omega),
                        if_neg (show ¬ z.toNat < x.toNat by omega)]
                      exact ih hab hbc

theorem strLe_total (a b : String) : strLe a b = true ∨ strLe b a = true :=
  lexLe_total a.data b.data

theorem strLe_trans {a b c : String} (hab : strLe a b = true)
    (hbc : strLe b c = true) : strLe a c = true :=
  lexLe_trans hab hbc

theorem digitsVal_foldl (l : List Char) :
    ∀ a : ℕ, l.foldl (fun a c => 10 * a + (c.toNat - 48)) a =
      a * 10 ^ l.length + l.foldl (fun a c => 10 * a + (c.toNat - 48)) 0 := by
  induction l with
  | nil => intro a; simp
  | cons c cs ih =>
      intro a
      rw [List.foldl_cons, List.foldl_cons, ih (10 * a + (c.toNat - 48)),
        ih (10 * 0 + (c.toNat - 48)), List.length_cons]
      ring

theorem digitsVal_cons (c : Char) (cs : List Char) :
    digitsVal (c :: cs) = (c.toNat - 48) * 10 ^ cs.length + digitsVal cs := by
  unfold digitsVal
  rw [List.foldl_cons, digitsVal_foldl cs (10 * 0 + (c.toNat - 48))]
  ring

theorem digitsVal_lt {l : List Char} (h : ∀ c ∈ l, c.isDigit = true) :
    digitsVal l < 10 ^ l.length := by
  induction l with
  | nil => simp [digitsVal]
  | cons c cs ih =>
      have hc := h c (List.mem_cons_self c cs)
      have hb : c.toNat ≤ 57 := by
        simp [Char.isDigit] at hc
        exact_mod_cast hc.2
      have hV := ih (fun x hx => h x (List.mem_cons_of_mem c hx))
      rw [digitsVal_cons, List.length_cons]
      have h9 : c.toNat - 48 ≤ 9 := by omega
      calc (c.toNat - 48) * 10 ^ cs.length + digitsVal cs
      _ < (c.toNat - 48) * 10 ^ cs.length + 10 ^ cs.length := by omega
      _ = (c.toNat - 48 + 1) * 10 ^ cs.length := by ring
      _ ≤ 10 * 10 ^ cs.length := by
            exact Nat.mul_le_mul_right _ (by omega)
      _ = 10 ^ (cs.length + 1) := by ring

theorem lexLe_digitsVal_le {a b : List Char} (hlen : a.length = b.length)
    (hda : ∀ c ∈ a, c.isDigit = true) (hdb : ∀ c ∈ b, c.isDigit = true)
    (hle : lexLe a b = true) : digitsVal a ≤ digitsVal b := by
  induction a generalizing b with
  | nil =>
      cases b with
      | nil => exact le_refl _
      | cons y ys => simp at hlen
  | cons x xs ih =>
      cases b with
      | nil => simp at hlen
      | cons y ys =>
          have hk : xs.length = ys.length := by simpa using hlen
          have hx48 : 48 ≤ x.toNat := by
            have := hda x (List.mem_cons_self x xs)
            simp [Char.isDigit] at this
            exact_mod_cast this.1
          have hy48 : 48 ≤ y.toNat := by
            have := hdb y (List.mem_cons_self y ys)
            simp [Char.isDigit] at this
            exact_mod_cast this.1
          rw [digitsVal_cons, digitsVal_cons, hk]
          by_cases hxy : x.toNat < y.toNat
          · have hVx : digitsVal xs < 10 ^ ys.length := by
              rw [← hk]
              exact digitsVal_lt (fun c hc => hda c (List.mem_cons_of_mem x hc))
            have hdxy : x.toNat - 48 + 1 ≤ y.toNat - 48 := by omega
            refine le_of_lt ?_
            calc (x.toNat - 48) * 10 ^ ys.length + digitsVal xs
            _ < (x.toNat - 48) * 10 ^ ys.length + 10 ^ ys.length := by omega
            _ = (x.toNat - 48 + 1) * 10 ^ ys.length := by ring
            _ ≤ (y.toNat - 48) * 10 ^ ys.length :=
                  Nat.mul_le_mul_right _ hdxy
            _ ≤ (y.toNat - 48) * 10 ^ ys.length + digitsVal ys := Nat.le_add_right _ _
          · by_cases hyx : y.toNat < x.toNat
            · simp [lexLe, hxy, hyx] at hle
            · have hEq : x.toNat = y.toNat := by omega
              have htail : lexLe xs ys = true := by
                simpa [lexLe, hxy, hyx] using hle
              have := ih hk (fun c hc => hda c (List.mem_cons_of_mem x hc))
                (fun c hc => hdb c (List.mem_cons_of_mem y hc)) htail
              rw [hEq]
              omega

theorem foldl_invariant_mem {β : Type} (P : α → Prop) (f : List α → β → List α)
    (l : List β)
    (hf : ∀ acc x, x ∈ l → (∀ y ∈ acc, P y) → ∀ y ∈ f acc x, P y) :
    ∀ (acc : List α), (∀ y ∈ acc, P y) → ∀ y ∈ l.foldl f acc, P y := by
  induction l with
  | nil => intro acc hacc y hy; exact hacc y hy
  | cons x xs ih =>
      intro acc hacc y hy
      exact ih (fun acc x hx => hf acc x (List.mem_cons_of_mem _ hx)) (f acc x)
        (hf acc x (List.mem_cons_self x xs) hacc) y hy

/-- C6: ticker resolution returns only strings of exactly four digit
characters with numeric value in [1000, 9999], without duplicates, sorted
ascending (both in the code-unit string order the sort uses and in
numeric value). -/
theorem c6_ticker_validity (codes : List String) (context : String) :
    (∀ t ∈ resolveTickerCodes codes context, ValidTicker t)
    ∧ (resolveTickerCodes codes context).Nodup
    ∧ (resolveTickerCodes codes context).Pairwise (fun x y => strLe x y = true)
    ∧ (resolveTickerCodes codes context).Pairwise
        (fun x y => digitsVal x.data ≤ digitsVal y.data) := by
  have hmap : ∀ x ∈ COMPANY_TICKER_MAP, ValidTicker x.2 := by decide
  have hbase1 : ∀ y ∈ codes.foldl (fun acc c =>
      match normalizeTickerCode c with
      | some t => addSet acc t
      | none => acc) ([] : List String), ValidTicker y := by
    refine foldl_invariant ValidTicker _ ?_ codes [] (by simp)
    intro acc x hacc y hy
    rcases hnt : normalizeTickerCode x with _ | t
    · rw [hnt] at hy
      exact hacc y hy
    · rw [hnt] at hy
      rcases mem_addSet hy with h | rfl
      · exact hacc y h
      · exact normalizeTickerCode_valid hnt
  have hbase : ∀ y ∈ COMPANY_TICKER_MAP.foldl (fun acc p =>
      if containsSeq p.1.data context.data then addSet acc p.2 else acc)
      (codes.foldl (fun acc c =>
        match normalizeTickerCode c with
        | some t => addSet acc t
        | none => acc) []), ValidTicker y := by
    refine foldl_invariant_mem ValidTicker _ COMPANY_TICKER_MAP ?_ _ hbase1
    intro acc x hx hacc y hy
    split_ifs at hy with hc
    · rcases mem_addSet hy with h | rfl
      · exact hacc y h
      · exact hmap x hx
    · exact hacc y hy
  have hnodup1 : (codes.foldl (fun acc c =>
      match normalizeTickerCode c with
      | some t => addSet acc t
      | none => acc) ([] : List String)).Nodup := by
    refine foldl_nodup _ ?_ codes [] List.nodup_nil
    intro acc x hacc
    rcases hnt : normalizeTickerCode x with _ | t <;> simp only []
    · exact hacc
    · exact nodup_addSet t hacc
  have hnodup : (COMPANY_TICKER_MAP.foldl (fun acc p =>
      if containsSeq p.1.data context.data then addSet acc p.2 else acc)
      (codes.foldl (fun acc c =>
        match normalizeTickerCode c with
        | some t => addSet acc t
        | none => acc) [])).Nodup := by
    refine foldl_nodup _ ?_ COMPANY_TICKER_MAP _ hnodup1
    intro acc x hacc
    split_ifs with hc
    · exact nodup_addSet _ hacc
    · exact hacc
  have hx : resolveTickerCodes codes context =
      stableSortBy strLe (COMPANY_TICKER_MAP.foldl (fun acc p =>
        if containsSeq p.1.data context.data then addSet acc p.2 else acc)
        (codes.foldl (fun acc c =>
          match normalizeTickerCode c with
          | some t => addSet acc t
          | none => acc) [])) := rfl
  rw [hx]
  have hperm := stableSortBy_perm strLe (COMPANY_TICKER_MAP.foldl (fun acc p =>
    if containsSeq p.1.data context.data then addSet acc p.2 else acc)
    (codes.foldl (fun acc c =>
      match normalizeTickerCode c with
      | some t => addSet acc t
      | none => acc) []))
  have hsortedPW := pairwise_stableSortBy
    (fun a b : String => strLe_total a b)
    (fun a b c hab hbc => strLe_trans hab hbc)
    (COMPANY_TICKER_MAP.foldl (fun acc p =>
      if containsSeq p.1.data context.data then addSet acc p.2 else acc)
      (codes.foldl (fun acc c =>
        match normalizeTickerCode c with
        | some t => addSet acc t
        | none => acc) []))
  refine ⟨?_, hperm.symm.nodup hnodup, hsortedPW, ?_⟩
  · intro t htmem
    exact hbase t (hperm.mem_iff.mp htmem)
  · refine hsortedPW.imp_of_mem ?_
    intro a b ha hb hR
    have hva := hbase a (hperm.mem_iff.mp ha)
    have hvb := hbase b (hperm.mem_iff.mp hb)
    exact lexLe_digitsVal_le (hva.1.trans hvb.1.symm) hva.2.1 hvb.2.1 hR

theorem charOfNatToNat (n : Nat) (h : n.isValidChar) : (Char.ofNat n).toNat = n := by
  simp [Char.ofNat, h, Char.ofNatAux, Char.toNat, UInt32.toNat, BitVec.toNat_ofNatLt]

theorem jsToLower_idem (c : Char) : jsToLower (jsToLower c) = jsToLower c := by
  unfold jsToLower Char.toLower
  by_cases h : c.toNat ≥ 65 ∧ c.toNat ≤ 90
  · rw [if_pos h]
    have hv : (c.toNat + 32).isValidChar := Or.inl (by omega)
    have ht : (Char.ofNat (c.toNat + 32)).toNat = c.toNat + 32 := charOfNatToNat _ hv
    rw [ht, if_neg (by omega)]
  · rw [if_neg h, if_neg h]

theorem map_jsToLower_idem (l : List Char) :
    (l.map jsToLower).map jsToLower = l.map jsToLower := by
  induction l with
  | nil => rfl
  | cons c cs ih => simp [jsToLower_idem, ih]

theorem jsToLower_cases (c : Char) :
    jsToLower c = c ∨
      (97 ≤ (jsToLower c).toNat ∧ (jsToLower c).toNat ≤ 122) := by
  unfold jsToLower Char.toLower
  by_cases h : c.toNat ≥ 65 ∧ c.toNat ≤ 90
  · right
    rw [if_pos h]
    have hv : (c.toNat + 32).isValidChar := Or.inl (by omega)
    rw [charOfNatToNat _ hv]
    omega
  · left
    rw [if_neg h]

theorem urlDelim_toNat_range {x : Char} (h97 : 97 ≤ x.toNat)
    (h122 : x.toNat ≤ 122) : urlDelim x = false := by
  have h1 : x ≠ '/' := fun hh => absurd h97 (by subst hh; decide)
  have h2 : x ≠ '?' := fun hh => absurd h97 (by subst hh; decide)
  have h3 : x ≠ '#' := fun hh => absurd h97 (by subst hh; decide)
  simp [urlDelim, h1, h2, h3]

theorem urlDelim_jsToLower {c : Char} (h : urlDelim c = false) :
    urlDelim (jsToLower c) = false := by
  rcases jsToLower_cases c with hc | ⟨h97, h122⟩
  · rw [hc]
    exact h
  · exact urlDelim_toNat_range h97 h122

theorem splitFirst_append_of_not_mem [DecidableEq α] {t : α} {s : List α}
    (h : t ∉ s) (rest : List α) : splitFirst t (s ++ t :: rest) = some (s, rest) := by
  induction s with
  | nil => simp [splitFirst]
  | cons c cs ih =>
      have hct : c ≠ t := fun hh => h (hh ▸ List.mem_cons_self c cs)
      have hnt : t ∉ cs := fun hh => h (List.mem_cons_of_mem c hh)
      simp [splitFirst, hct, ih hnt]

theorem splitFirst_eq_none_iff [DecidableEq α] {t : α} {l : List α} :
    splitFirst t l = none ↔ t ∉ l := by
  induction l with
  | nil => simp [splitFirst]
  | cons c cs ih =>
      rw [splitFirst]
      by_cases hc : c = t
      · subst hc
        simp
      · rw [if_neg hc]
        constructor
        · intro h hm
          rcases List.mem_cons.mp hm with h' | h'
          · exact hc h'.symm
          · rcases hsf : splitFirst t cs with _ | p
            · exact (ih.mp hsf) h'
            · rw [hsf] at h
              exact Option.noConfusion h
        · intro h
          have hnone : splitFirst t cs = none :=
            ih.mpr (fun hm => h (List.mem_cons_of_mem c hm))
          rw [hnone]
          rfl

theorem splitFirst_some_eq [DecidableEq α] {t : α} {l x y : List α}
    (h : splitFirst t l = some (x, y)) : l = x ++ t :: y ∧ t ∉ x := by
  induction l generalizing x y with
  | nil => exact Option.noConfusion h
  | cons c cs ih =>
      rw [splitFirst] at h
      by_cases hc : c = t
      · rw [if_pos hc] at h
        subst hc
        have h' : (([] : List α), cs) = (x, y) := Option.some.inj h
        obtain ⟨h1, h2⟩ := Prod.mk.injEq _ _ _ _ ▸ h'
        subst h2
        rw [← h1]
        simp
      · rw [if_neg hc] at h
        rcases hsf : splitFirst t cs with _ | q
        · rw [hsf] at h
          exact Option.noConfusion h
        · rw [hsf] at h
          have h' : (c :: q.1, q.2) = (x, y) := Option.some.inj h
          obtain ⟨h1, h2⟩ := Prod.mk.injEq _ _ _ _ ▸ h'
          obtain ⟨hcs, hnx⟩ := ih (x := q.1) (y := q.2) (by rw [hsf])
          subst h2
          constructor
          · rw [← h1, hcs]
            simp
          · rw [← h1]
            intro hmem
            rcases List.mem_cons.mp hmem with h'' | h''
            · exact hc h''.symm
            · exact hnx h''

theorem dropWhile_head_false {p : α → Bool} {l : List α} {c : α} {t : List α}
    (h : l.dropWhile p = c :: t) : p c = false := by
  induction l with
  | nil => simp [List.dropWhile] at h
  | cons x xs ih =>
      rw [List.dropWhile] at h
      by_cases hx : p x
      · rw [hx] at h
        exact ih h
      · have hx' : p x = false := by simpa using hx
        rw [hx'] at h
        obtain ⟨rfl, -⟩ := List.cons.injEq _ _ _ _ ▸ h
        exact hx'

theorem takeWhile_two_shape {p : α → Bool} {l : List α} {c1 c2 : α} {t : List α}
    (h : l.takeWhile p = c1 :: c2 :: t) : ∃ t2, l = c1 :: c2 :: t2 := by
  cases l with
  | nil => simp [List.takeWhile] at h
  | cons a as =>
      rw [List.takeWhile] at h
      by_cases ha : p a
      · rw [ha] at h
        obtain ⟨rfl, h2⟩ := List.cons.injEq _ _ _ _ ▸ h
        cases as with
        | nil => simp [List.takeWhile] at h2
        | cons b bs =>
            rw [List.takeWhile] at h2
            by_cases hb : p b
            · rw [hb] at h2
              obtain ⟨rfl, -⟩ := List.cons.injEq _ _ _ _ ▸ h2
              exact ⟨bs, rfl⟩
            · have hb' : p b = false := by simpa using hb
              rw [hb'] at h2
              simp at h2
      · have ha' : p a = false := by simpa using ha
        rw [ha'] at h
        simp at h

theorem splitOnAmp_ne_nil (l : List Char) : splitOnAmp l ≠ [] := by
  cases l with
  | nil => simp [splitOnAmp]
  | cons c rest =>
      rw [splitOnAmp]
      by_cases hc : c = '&'
      · simp [hc]
      · rcases h : splitOnAmp rest with _ | ⟨p, ps⟩ <;> simp [hc, h]

theorem splitOnAmp_no_amp {l : List Char} (h : '&' ∉ l) : splitOnAmp l = [l] := by
  induction l with
  | nil => rfl
  | cons c rest ih =>
      have hc : c ≠ '&' := fun hh => h (hh ▸ List.mem_cons_self c rest)
      have hrest : '&' ∉ rest := fun hh => h (List.mem_cons_of_mem c hh)
      rw [splitOnAmp, if_neg hc, ih hrest]

theorem splitOnAmp_append {x : List Char} (h : '&' ∉ x) (z : List Char) :
    splitOnAmp (x ++ '&' :: z) = x :: splitOnAmp z := by
  induction x with
  | nil => simp [splitOnAmp]
  | cons c cs ih =>
      have hc : c ≠ '&' := fun hh => h (hh ▸ List.mem_cons_self c cs)
      have hcs : '&' ∉ cs := fun hh => h (List.mem_cons_of_mem c hh)
      rw [List.cons_append, splitOnAmp, if_neg hc, ih hcs]

theorem mem_of_mem_splitOnAmp {q : List Char} {p : List Char}
    (hp : p ∈ splitOnAmp q) : ∀ c ∈ p, c ∈ q ∧ c ≠ '&' := by
  induction q generalizing p with
  | nil =>
      simp [splitOnAmp] at hp
      subst hp
      simp
  | cons a rest ih =>
      rw [splitOnAmp] at hp
      by_cases ha : a = '&'
      · rw [if_pos ha] at hp
        rcases List.mem_cons.mp hp with rfl | hp'
        · simp
        · intro c hc
          obtain ⟨h1, h2⟩ := ih hp' c hc
          exact ⟨List.mem_cons_of_mem a h1, h2⟩
      · rw [if_neg ha] at hp
        rcases hs : splitOnAmp rest with _ | ⟨p0, ps0⟩
        · exact absurd hs (splitOnAmp_ne_nil rest)
        · rw [hs] at hp
          rcases List.mem_cons.mp hp with rfl | hp'
          · intro c hc
            rcases List.mem_cons.mp hc with h0 | hc'
            · rw [h0]
              exact ⟨List.mem_cons_self a rest, ha⟩
            · obtain ⟨h1, h2⟩ := ih (hs ▸ List.mem_cons_self p0 ps0) c hc'
              exact ⟨List.mem_cons_of_mem a h1, h2⟩
          · intro c hc
            obtain ⟨h1, h2⟩ := ih (hs ▸ List.mem_cons_of_mem p0 hp') c hc
            exact ⟨List.mem_cons_of_mem a h1, h2⟩

theorem mem_intercalateChar {sep : Char} {pieces : List (List Char)} {c : Char}
    (h : c ∈ intercalateChar sep pieces) : c = sep ∨ ∃ p ∈ pieces, c ∈ p := by
  induction pieces with
  | nil => simp [intercalateChar] at h
  | cons x xs ih =>
      cases xs with
      | nil =>
          right
          exact ⟨x, List.mem_cons_self x [], by simpa [intercalateChar] using h⟩
      | cons y ys =>
          rw [show intercalateChar sep (x :: y :: ys) =
            x ++ sep :: intercalateChar sep (y :: ys) from rfl] at h
          rcases List.mem_append.mp h with hx | hrest
          · right
            exact ⟨x, List.mem_cons_self x (y :: ys), hx⟩
          · rcases List.mem_cons.mp hrest with rfl | h'
            · left
              rfl
            · rcases ih h' with h'' | ⟨p, hp, hcp⟩
              · exact Or.inl h''
              · exact Or.inr ⟨p, List.mem_cons_of_mem x hp, hcp⟩

theorem splitOnAmp_intercalate {pieces : List (List Char)} (hne : pieces ≠ [])
    (h : ∀ p ∈ pieces, '&' ∉ p) :
    splitOnAmp (intercalateChar '&' pieces) = pieces := by
  induction pieces with
  | nil => exact absurd rfl hne
  | cons x xs ih =>
      cases xs with
      | nil =>
          rw [show intercalateChar '&' [x] = x from rfl]
          exact splitOnAmp_no_amp (h x (List.mem_cons_self x []))
      | cons y ys =>
          rw [show intercalateChar '&' (x :: y :: ys) =
            x ++ '&' :: intercalateChar '&' (y :: ys) from rfl]
          rw [splitOnAmp_append (h x (List.mem_cons_self x (y :: ys)))]
          rw [ih (by simp) (fun p hp => h p (List.mem_cons_of_mem x hp))]

theorem parseParams_entry {q n v : List Char}
    (h : (n, v) ∈ parseParams q) :
    (∀ c ∈ n, c ∈ q ∧ c ≠ '&') ∧ (∀ c ∈ v, c ∈ q ∧ c ≠ '&') ∧ '=' ∉ n := by
  unfold parseParams at h
  rcases List.mem_map.mp h with ⟨piece, hpiece, heq⟩
  have hpmem : piece ∈ splitOnAmp q := (List.mem_filter.mp hpiece).1
  have hchars := mem_of_mem_splitOnAmp hpmem
  rcases hsf : splitFirst '=' piece with _ | pr
  · rw [hsf] at heq
    obtain ⟨h1, h2⟩ := Prod.mk.injEq _ _ _ _ ▸ heq
    refine ⟨?_, ?_, ?_⟩
    · intro c hc
      exact hchars c (h1 ▸ hc)
    · intro c hc
      rw [← h2] at hc
      simp at hc
    · intro hmem
      exact (splitFirst_eq_none_iff.mp hsf) (h1 ▸ hmem)
  · rw [hsf] at heq
    obtain ⟨hps, hnx⟩ := splitFirst_some_eq (t := '=') (x := pr.1) (y := pr.2)
      (by rw [hsf])
    obtain ⟨h1, h2⟩ := Prod.mk.injEq _ _ _ _ ▸ heq
    refine ⟨?_, ?_, ?_⟩
    · intro c hc
      refine hchars c ?_
      rw [hps]
      exact List.mem_append.mpr (Or.inl (h1 ▸ hc))
    · intro c hc
      refine hchars c ?_
      rw [hps]
      exact List.mem_append.mpr (Or.inr (List.mem_cons_of_mem '=' (h2 ▸ hc)))
    · intro hmem
      exact hnx (h1 ▸ hmem)

theorem parseParams_serializeParams {ps : List (List Char × List Char)}
    (hne : ps ≠ [])
    (hinv : ∀ p ∈ ps, '&' ∉ p.1 ∧ '&' ∉ p.2 ∧ '=' ∉ p.1) :
    parseParams (serializeParams ps) = ps := by
  unfold parseParams serializeParams
  have hpieces : splitOnAmp (intercalateChar '&'
      (ps.map (fun p => p.1 ++ '=' :: p.2))) = ps.map (fun p => p.1 ++ '=' :: p.2) := by
    apply splitOnAmp_intercalate
    · simp [hne]
    · intro piece hpiece
      rcases List.mem_map.mp hpiece with ⟨p, hp, rfl⟩
      obtain ⟨h1, h2, -⟩ := hinv p hp
      intro hc
      rcases List.mem_append.mp hc with hc | hc
      · exact h1 hc
      · rcases List.mem_cons.mp hc with hc | hc
        · exact absurd hc (by decide)
        · exact h2 hc
  rw [hpieces]
  have hfil : (ps.map (fun p => p.1 ++ '=' :: p.2)).filter
      (fun p => ¬ p.isEmpty) = ps.map (fun p => p.1 ++ '=' :: p.2) := by
    apply List.filter_eq_self.mpr
    intro piece hpiece
    rcases List.mem_map.mp hpiece with ⟨p, hp, rfl⟩
    simp
  rw [hfil, List.map_map]
  have hid : ∀ p ∈ ps, ((fun piece =>
      match splitFirst '=' piece with
      | some nv => nv
      | none => (piece, ([] : List Char))) ∘ (fun p => p.1 ++ '=' :: p.2)) p = id p := by
    intro p hp
    have := splitFirst_append_of_not_mem (hinv p hp).2.2 p.2
    simp only [Function.comp_apply, this, id]
  rw [List.map_congr_left hid, List.map_id]

theorem startsWith2_iff (c1 c2 : Char) (l : List Char) :
    startsWithSeq [c1, c2] l = true ↔ ∃ t, l = c1 :: c2 :: t := by
  cases l with
  | nil => simp [startsWithSeq]
  | cons a as =>
      cases as with
      | nil => simp [startsWithSeq]
      | cons b bs =>
          constructor
          · intro h
            simp [startsWithSeq] at h
            exact ⟨bs, by rw [h.1, h.2]⟩
          · rintro ⟨t, ht⟩
            obtain ⟨h1, h2⟩ := List.cons.injEq _ _ _ _ ▸ ht
            obtain ⟨h3, -⟩ := List.cons.injEq _ _ _ _ ▸ h2
            simp [startsWithSeq, h1, h3]

/-- Invariants of a parsed URL record needed for the serialize-then-parse
round trip: a valid lowercase scheme, a lowercase authority free of
delimiters, a delimiter-free path that cannot be mistaken for an
authority, and a fragment-free query. -/
def UrlWF (u : JsUrl) : Prop :=
  validScheme u.scheme = true ∧
  u.scheme.map jsToLower = u.scheme ∧
  (∀ a, u.authority = some a →
    (∀ c ∈ a, urlDelim c = false) ∧ a.map jsToLower = a) ∧
  (∀ c ∈ u.path, pqDelim c = false) ∧
  (u.authority = none → ∀ t, u.path ≠ '/' :: '/' :: t) ∧
  (u.authority ≠ none → u.path = [] ∨ ∃ t, u.path = '/' :: t) ∧
  (∀ q, u.query = some q → '#' ∉ q)

theorem parseTail_path_delim (r : List Char) :
    ∀ c ∈ (parseTail r).1, pqDelim c = false := by
  intro c hc
  have := List.mem_takeWhile_imp hc
  simpa using this

theorem parseTail_query (r : List Char) :
    ∀ q, (parseTail r).2.1 = some q → '#' ∉ q := by
  intro q hq
  have hq2 : (parseQF (r.dropWhile (fun c => ¬ pqDelim c))).1 = some q := hq
  rcases hd : r.dropWhile (fun c => ¬ pqDelim c) with _ | ⟨c, rest⟩
  · rw [hd] at hq2
    exact Option.noConfusion hq2
  · rw [hd] at hq2
    rw [show parseQF (c :: rest) = if c = '?' then
        (some (rest.takeWhile (fun ch => ch ≠ '#')),
          parseFrag (rest.dropWhile (fun ch => ch ≠ '#')))
      else (none, some rest) from rfl] at hq2
    split_ifs at hq2 with hc
    have hq' : rest.takeWhile (fun ch => ch ≠ '#') = q := Option.some.inj hq2
    intro hmem
    rw [← hq'] at hmem
    have := List.mem_takeWhile_imp hmem
    simp at this

theorem parseUrl_wf {s : String} {u : JsUrl} (h : parseUrl s = some u) :
    UrlWF u := by
  unfold parseUrl at h
  rcases hsp : splitFirst ':' s.data with _ | sr
  · rw [hsp] at h
    exact Option.noConfusion h
  rw [hsp, Option.some_bind] at h
  by_cases hv : validScheme (sr.1.map jsToLower)
  case neg =>
    rw [if_neg hv] at h
    exact Option.noConfusion h
  rw [if_pos hv] at h
  by_cases hss : startsWithSeq ['/', '/'] sr.2
  · rw [if_pos hss] at h
    have hu := Option.some.inj h
    subst hu
    refine ⟨hv, map_jsToLower_idem _, ?_, parseTail_path_delim _, ?_, ?_,
      parseTail_query _⟩
    · intro a ha
      have ha' : ((sr.2.drop 2).takeWhile (fun c => ¬ urlDelim c)).map jsToLower = a :=
        Option.some.inj ha
      rw [← ha']
      constructor
      · intro c hc
        rcases List.mem_map.mp hc with ⟨c0, hc0, rfl⟩
        have := List.mem_takeWhile_imp hc0
        exact urlDelim_jsToLower (by simpa using this)
      · exact map_jsToLower_idem _
    · intro hnone
      exact Option.noConfusion hnone
    · intro _ha
      have hgoal : (parseTail ((sr.2.drop 2).dropWhile (fun c => ¬ urlDelim c))).1 = []
          ∨ ∃ t, (parseTail ((sr.2.drop 2).dropWhile (fun c => ¬ urlDelim c))).1 =
            '/' :: t := by
        rcases hd : (sr.2.drop 2).dropWhile (fun c => ¬ urlDelim c) with _ | ⟨c, rest⟩
        · left
          rfl
        · have hc : urlDelim c = true := by
            have := dropWhile_head_false hd
            simpa using this
          by_cases hcsl : c = '/'
          · right
            subst hcsl
            refine ⟨rest.takeWhile (fun ch => ¬ pqDelim ch), ?_⟩
            show List.takeWhile (fun ch => ¬ pqDelim ch) ('/' :: rest) = _
            rw [List.takeWhile_cons, if_pos (by simp [pqDelim])]
          · left
            have hpq : pqDelim c = true := by
              have hor : (c = '/' ∨ c = '?') ∨ c = '#' := by
                simpa [urlDelim] using hc
              rw [or_assoc] at hor
              rcases hor with h' | h' | h'
              · exact absurd h' hcsl
              · simp [pqDelim, h']
              · simp [pqDelim, h']
            show List.takeWhile (fun ch => ¬ pqDelim ch) (c :: rest) = []
            rw [List.takeWhile_cons, if_neg (by simp [hpq])]
      exact hgoal
  · rw [if_neg hss] at h
    have hu := Option.some.inj h
    subst hu
    refine ⟨hv, map_jsToLower_idem _, ?_, parseTail_path_delim _, ?_, ?_,
      parseTail_query _⟩
    · intro a ha
      exact Option.noConfusion ha
    · intro _ha t hcontra
      have hcontra2 : sr.2.takeWhile (fun c => ¬ pqDelim c) = '/' :: '/' :: t := hcontra
      obtain ⟨t2, ht2⟩ := takeWhile_two_shape hcontra2
      exact hss ((startsWith2_iff '/' '/' sr.2).mpr ⟨t2, ht2⟩)
    · intro hne
      exact absurd rfl hne

theorem validScheme_no_colon {s : List Char} (h : validScheme s = true) :
    ':' ∉ s := by
  cases s with
  | nil => simp
  | cons c rest =>
      simp only [validScheme, Bool.and_eq_true] at h
      intro hmem
      rcases List.mem_cons.mp hmem with h0 | hmem'
      · rw [← h0] at h
        exact absurd h.1 (by decide)
      · have := (List.all_eq_true.mp h.2) ':' hmem'
        exact absurd this (by decide)

theorem takeWhile_queryPart (query : Option (List Char)) :
    (queryPart query).takeWhile (fun c => ¬ pqDelim c) = [] := by
  rcases query with _ | q
  · rfl
  · rw [show queryPart (some q) = '?' :: q from rfl, List.takeWhile_cons,
      if_neg (by simp [pqDelim])]

theorem dropWhile_queryPart (query : Option (List Char)) :
    (queryPart query).dropWhile (fun c => ¬ pqDelim c) = queryPart query := by
  rcases query with _ | q
  · rfl
  · rw [show queryPart (some q) = '?' :: q from rfl, List.dropWhile_cons,
      if_neg (by simp [pqDelim])]

theorem parseQF_queryPart (query : Option (List Char))
    (hq : ∀ q, query = some q → '#' ∉ q) :
    parseQF (queryPart query) = (query, none) := by
  rcases query with _ | q
  · rfl
  · have hq' : '#' ∉ q := hq q rfl
    rw [show queryPart (some q) = '?' :: q from rfl]
    rw [show parseQF ('?' :: q) = if ('?' : Char) = '?' then
      (some (q.takeWhile (fun ch => ch ≠ '#')), parseFrag (q.dropWhile (fun ch => ch ≠ '#')))
      else (none, some q) from rfl]
    rw [if_pos rfl]
    have h1 : q.takeWhile (fun ch => decide (ch ≠ '#')) = q :=
      List.takeWhile_eq_self_iff.mpr
        (fun c hc => decide_eq_true (fun hh : c = '#' => hq' (hh ▸ hc)))
    have h2 : q.dropWhile (fun ch => decide (ch ≠ '#')) = [] :=
      List.dropWhile_eq_nil_iff.mpr
        (fun c hc => decide_eq_true (fun hh : c = '#' => hq' (hh ▸ hc)))
    rw [h1, h2]
    rfl

theorem parseTail_reassemble (path : List Char)
    (hpath : ∀ c ∈ path, pqDelim c = false)
    (query : Option (List Char)) (hq : ∀ q, query = some q → '#' ∉ q) :
    parseTail (path ++ queryPart query) = (path, query, none) := by
  unfold parseTail
  rw [List.takeWhile_append_of_pos (fun c hc => by simp [hpath c hc]),
    List.dropWhile_append_of_pos (fun c hc => by simp [hpath c hc]),
    takeWhile_queryPart, dropWhile_queryPart, List.append_nil,
    parseQF_queryPart query hq]

theorem auth_split (a : List Char) (ha : ∀ c ∈ a, urlDelim c = false)
    (path : List Char) (hshape : path = [] ∨ ∃ t, path = '/' :: t)
    (query : Option (List Char)) :
    (a ++ (path ++ queryPart query)).takeWhile (fun c => ¬ urlDelim c) = a ∧
    (a ++ (path ++ queryPart query)).dropWhile (fun c => ¬ urlDelim c) =
      path ++ queryPart query := by
  have hX : (path ++ queryPart query).takeWhile (fun c => ¬ urlDelim c) = [] ∧
      (path ++ queryPart query).dropWhile (fun c => ¬ urlDelim c) =
        path ++ queryPart query := by
    rcases hshape with rfl | ⟨t, rfl⟩
    · simp only [List.nil_append]
      rcases query with _ | q
      · exact ⟨rfl, rfl⟩
      · rw [show queryPart (some q) = '?' :: q from rfl]
        exact ⟨by rw [List.takeWhile_cons, if_neg (by simp [urlDelim])],
          by rw [List.dropWhile_cons, if_neg (by simp [urlDelim])]⟩
    · rw [List.cons_append]
      exact ⟨by rw [List.takeWhile_cons, if_neg (by simp [urlDelim])],
        by rw [List.dropWhile_cons, if_neg (by simp [urlDelim])]⟩
  constructor
  · rw [List.takeWhile_append_of_pos (fun c hc => by simp [ha c hc]), hX.1,
      List.append_nil]
  · rw [List.dropWhile_append_of_pos (fun c hc => by simp [ha c hc]), hX.2]

theorem serialize_parse {u : JsUrl} (hwf : UrlWF u) (hf : u.fragment = none) :
    parseUrl (serializeUrl u) = some u := by
  obtain ⟨scheme, authority, path, query, fragment⟩ := u
  obtain ⟨hv, hlow, hauth, hpath, hnone, hsome, hq⟩ := hwf
  simp only at hv hlow hauth hpath hnone hsome hq
  simp only at hf
  subst hf
  have hcolon : ':' ∉ scheme := validScheme_no_colon hv
  have hdata : (serializeUrl ⟨scheme, authority, path, query, none⟩).data =
      scheme ++ ':' :: (authorityPart authority ++ (path ++ queryPart query)) := by
    show scheme ++ [':'] ++ authorityPart authority ++ path ++ queryPart query ++
      fragmentPart none = _
    rw [show fragmentPart none = [] from rfl]
    simp [List.append_assoc]
  unfold parseUrl
  rw [hdata, splitFirst_append_of_not_mem hcolon, Option.some_bind]
  simp only
  rw [hlow, if_pos hv]
  rcases authority with _ | a
  · have hssf : startsWithSeq ['/', '/']
        (authorityPart none ++ (path ++ queryPart query)) = false := by
      rw [show authorityPart none = [] from rfl, List.nil_append]
      by_contra hcontra
      have hcontra' : startsWithSeq ['/', '/'] (path ++ queryPart query) = true := by
        revert hcontra
        cases startsWithSeq ['/', '/'] (path ++ queryPart query) <;> simp
      obtain ⟨t, ht⟩ := (startsWith2_iff '/' '/' _).mp hcontra'
      cases path with
      | nil =>
          rw [List.nil_append] at ht
          rcases query with _ | q
          · exact List.noConfusion ht
          · obtain ⟨h1, -⟩ := List.cons.injEq _ _ _ _ ▸ ht
            exact absurd h1 (by decide)
      | cons c1 p1 =>
          rw [List.cons_append] at ht
          obtain ⟨h1, h2⟩ := List.cons.injEq _ _ _ _ ▸ ht
          cases p1 with
          | nil =>
              rw [List.nil_append] at h2
              rcases query with _ | q
              · exact List.noConfusion h2
              · obtain ⟨h3, -⟩ := List.cons.injEq _ _ _ _ ▸ h2
                exact absurd h3 (by decide)
          | cons c2 p2 =>
              rw [List.cons_append] at h2
              obtain ⟨h3, -⟩ := List.cons.injEq _ _ _ _ ▸ h2
              exact hnone rfl p2 (by rw [h1, h3])
    rw [show authorityPart none = [] from rfl, List.nil_append] at hssf ⊢
    rw [hssf]
    simp only [Bool.false_eq_true, if_false]
    rw [parseTail_reassemble path hpath query hq]
  · have hA := hauth a rfl
    have hss : startsWithSeq ['/', '/']
        (authorityPart (some a) ++ (path ++ queryPart query)) = true := by
      rw [show authorityPart (some a) = '/' :: '/' :: a from rfl, List.cons_append,
        List.cons_append]
      exact (startsWith2_iff '/' '/' _).mpr ⟨a ++ (path ++ queryPart query), rfl⟩
    rw [hss]
    simp only [if_true]
    have hdrop2 : (authorityPart (some a) ++ (path ++ queryPart query)).drop 2 =
        a ++ (path ++ queryPart query) := by
      rw [show authorityPart (some a) = '/' :: '/' :: a from rfl, List.cons_append,
        List.cons_append]
      rfl
    rw [hdrop2]
    obtain ⟨htw, hdw⟩ := auth_split a hA.1 path (hsome (by simp)) query
    rw [htw, hdw, hA.2, parseTail_reassemble path hpath query hq]

theorem cleanQuery_no_hash {query : Option (List Char)}
    (hq : ∀ q, query = some q → '#' ∉ q) :
    ∀ q', cleanQuery query = some q' → '#' ∉ q' := by
  intro q' hq'
  rcases query with _ | q0
  · exact Option.noConfusion hq'
  · replace hq' : (if ((parseParams q0).filter
        (fun p => p.1 ∉ trackingParams)).isEmpty then none
      else some (serializeParams
        ((parseParams q0).filter (fun p => p.1 ∉ trackingParams)))) = some q' := hq'
    split_ifs at hq' with hemp
    have hqeq : serializeParams
        ((parseParams q0).filter (fun p => p.1 ∉ trackingParams)) = q' :=
      Option.some.inj hq'
    intro hmem
    rw [← hqeq] at hmem
    rcases mem_intercalateChar hmem with h1 | ⟨piece, hpiece, hcp⟩
    · exact absurd h1 (by decide)
    · rcases List.mem_map.mp hpiece with ⟨p, hp, rfl⟩
      have hpp : (p.1, p.2) ∈ parseParams q0 := by
        rw [Prod.mk.eta]
        exact (List.mem_filter.mp hp).1
      obtain ⟨hn, hv2, -⟩ := parseParams_entry hpp
      rcases List.mem_append.mp hcp with hc | hc
      · exact hq q0 rfl (hn '#' hc).1
      · rcases List.mem_cons.mp hc with h0 | hc'
        · exact absurd h0 (by decide)
        · exact hq q0 rfl (hv2 '#' hc').1

theorem cleanUrl_wf {u : JsUrl} (hwf : UrlWF u) :
    UrlWF (cleanUrl u) ∧ (cleanUrl u).fragment = none := by
  obtain ⟨hv, hlow, hauth, hpath, hnone, hsome, hq⟩ := hwf
  refine ⟨⟨?_, ?_, hauth, hpath, hnone, hsome, cleanQuery_no_hash hq⟩, rfl⟩
  · show validScheme (if u.scheme = "http".data then "https".data else u.scheme) = true
    split_ifs with hs
    · decide
    · exact hv
  · show (if u.scheme = "http".data then "https".data else u.scheme).map jsToLower =
      (if u.scheme = "http".data then "https".data else u.scheme)
    split_ifs with hs
    · decide
    · exact hlow

theorem cleanQuery_idem (query : Option (List Char)) :
    cleanQuery (cleanQuery query) = cleanQuery query := by
  rcases query with _ | q0
  · rfl
  · rw [show cleanQuery (some q0) =
      if ((parseParams q0).filter (fun p => p.1 ∉ trackingParams)).isEmpty then none
      else some (serializeParams
        ((parseParams q0).filter (fun p => p.1 ∉ trackingParams))) from rfl]
    split_ifs with hemp
    · rfl
    · have hne : (parseParams q0).filter (fun p => p.1 ∉ trackingParams) ≠ [] := by
        intro hcontra
        rw [hcontra] at hemp
        exact hemp rfl
      have hinv : ∀ p ∈ (parseParams q0).filter (fun p => p.1 ∉ trackingParams),
          '&' ∉ p.1 ∧ '&' ∉ p.2 ∧ '=' ∉ p.1 := by
        intro p hp
        have hpp : (p.1, p.2) ∈ parseParams q0 := by
          rw [Prod.mk.eta]
          exact (List.mem_filter.mp hp).1
        obtain ⟨h1, h2, h3⟩ := parseParams_entry hpp
        exact ⟨fun hc => (h1 '&' hc).2 rfl, fun hc => (h2 '&' hc).2 rfl, h3⟩
      have hround := parseParams_serializeParams hne hinv
      rw [show cleanQuery (some (serializeParams
          ((parseParams q0).filter (fun p => p.1 ∉ trackingParams)))) =
        if ((parseParams (serializeParams
            ((parseParams q0).filter (fun p => p.1 ∉ trackingParams)))).filter
            (fun p => p.1 ∉ trackingParams)).isEmpty then none
        else some (serializeParams ((parseParams (serializeParams
            ((parseParams q0).filter (fun p => p.1 ∉ trackingParams)))).filter
            (fun p => p.1 ∉ trackingParams))) from rfl]
      rw [hround]
      have hfilter : ((parseParams q0).filter
          (fun p => p.1 ∉ trackingParams)).filter (fun p => p.1 ∉ trackingParams) =
          (parseParams q0).filter (fun p => p.1 ∉ trackingParams) := by
        apply List.filter_eq_self.mpr
        intro p hp
        exact (List.mem_filter.mp hp).2
      rw [hfilter, if_neg hemp]

theorem cleanUrl_idem (u : JsUrl) : cleanUrl (cleanUrl u) = cleanUrl u := by
  obtain ⟨s, a, p, q, f⟩ := u
  show JsUrl.mk
      (if (if s = "http".data then "https".data else s) = "http".data then
        "https".data else (if s = "http".data then "https".data else s))
      a p (cleanQuery (cleanQuery q)) none =
    JsUrl.mk (if s = "http".data then "https".data else s) a p (cleanQuery q) none
  rw [cleanQuery_idem]
  by_cases hs : s = "http".data
  · rw [if_pos hs, if_neg (by decide)]
  · rw [if_neg hs, if_neg hs]

/-- C8: URL normalization is idempotent, and an unparseable input string is
returned unchanged rather than failing. -/
theorem c8_normalizeUrl_idempotent (u : String) :
    normalizeUrl (normalizeUrl u) = normalizeUrl u
    ∧ (parseUrl u = none → normalizeUrl u = u) := by
  constructor
  · rcases hp : parseUrl u with _ | r
    · have h1 : normalizeUrl u = u := by
        unfold normalizeUrl
        rw [hp]
      rw [h1, h1]
    · have h1 : normalizeUrl u = serializeUrl (cleanUrl r) := by
        unfold normalizeUrl
        rw [hp]
      have hwf := parseUrl_wf hp
      obtain ⟨hcwf, hcf⟩ := cleanUrl_wf hwf
      have h2 : parseUrl (serializeUrl (cleanUrl r)) = some (cleanUrl r) :=
        serialize_parse hcwf hcf
      rw [h1]
      unfold normalizeUrl
      rw [h2]
      show serializeUrl (cleanUrl (cleanUrl r)) = serializeUrl (cleanUrl r)
      rw [cleanUrl_idem]
  · intro hp
    unfold normalizeUrl
    rw [hp]

/-- Concrete instantiation of the C8 theorem: a string that fails to parse
as a URL is returned unchanged, and normalizing it twice equals
normalizing it once. -/
theorem c8_normalizeUrl_idempotent_witness :
    normalizeUrl "not a url" = "not a url" :=
  (c8_normalizeUrl_idempotent "not a url").2 (by decide)

end BizStock
